import Mathlib

/-!
Shallow embedding of the core of `ydiff.py` (terminal diff viewer) and proofs
about it.  Text lines are modelled as `List Char`; byte strings as
`List (Fin 256)`.  Python loops that consume at least one character per
iteration are modelled with an explicit fuel argument equal to the input
length, so that every definition is executable by kernel reduction.
-/

namespace Ydiff

abbrev Line := List Char

/-- The COLORS table of the source, in source order (escape code per name). -/
def COLORS : List (String × Line) :=
  [("reset", "\x1b[0m".toList),
   ("underline", "\x1b[4m".toList),
   ("reverse", "\x1b[7m".toList),
   ("red", "\x1b[31m".toList),
   ("green", "\x1b[32m".toList),
   ("yellow", "\x1b[33m".toList),
   ("blue", "\x1b[34m".toList),
   ("magenta", "\x1b[35m".toList),
   ("cyan", "\x1b[36m".toList),
   ("lightred", "\x1b[1;31m".toList),
   ("lightgreen", "\x1b[1;32m".toList),
   ("lightyellow", "\x1b[1;33m".toList),
   ("lightblue", "\x1b[1;34m".toList),
   ("lightmagenta", "\x1b[1;35m".toList),
   ("lightcyan", "\x1b[1;36m".toList)]

/-- Lookup `COLORS[name]` (Python dict access; names in the table are unique). -/
def colorCode (name : String) : Line :=
  match COLORS.find? (fun p => p.1 == name) with
  | some p => p.2
  | none => []

/-- The scan `for color in COLORS: if text.startswith(COLORS[color])` of
`strsplit`: first table entry whose escape code is a prefix of `text`,
returned with the code length.  (The codes are prefix-free, so table order
does not actually matter.) -/
def findColorIn : List (String × Line) → Line → Option (String × Nat)
  | [], _ => none
  | (name, code) :: tbl, text =>
      if code.isPrefixOf text then some (name, code.length) else findColorIn tbl text

def findColor (text : Line) : Option (String × Nat) := findColorIn COLORS text

/-- The while loop of `strsplit`.  `fuel` bounds the number of iterations;
each iteration consumes at least one character, so `fuel = text.length`
reproduces the Python loop exactly.  Returns
(first, second-before-reopen, found_colors, chars_cnt). -/
def strsplitAux (width : Nat) : Nat → Line → Line → List String → Nat →
    Line × Line × List String × Nat
  | _, [], first, found, cnt => (first, [], found, cnt)
  | 0, text, first, found, cnt => (first, text, found, cnt)
  | fuel + 1, c :: rest, first, found, cnt =>
    match findColor (c :: rest) with
    | some (name, k) =>
        strsplitAux width fuel ((c :: rest).drop k) (first ++ (c :: rest).take k)
          (if name = "reset" then [] else found ++ [name]) cnt
    | none =>
        if width ≤ cnt then (first, c :: rest, found, cnt)
        else strsplitAux width fuel rest (first ++ [c]) found (cnt + 1)

/-- `strsplit(text, width)` of the source: split into (first, second,
number of visible chars in first), closing open colors at the break with a
reset and reopening them in front of the second piece. -/
def strsplit (text : Line) (width : Nat) : Line × Line × Nat :=
  let r := strsplitAux width text.length text [] [] 0
  let first := r.1
  let second := r.2.1
  let found := r.2.2.1
  let cnt := r.2.2.2
  if found.isEmpty then (first, second, cnt)
  else (first ++ colorCode "reset", found.foldl (fun s c => colorCode c ++ s) second, cnt)

/-- `strtrim(text, width, wrap_char, pad)` of the source. -/
def strtrim (text : Line) (width : Nat) (wrap_char : Line) (pad : Bool) : Line :=
  let r := strsplit text (width + 1)
  let text1 := r.1
  let tlen := r.2.2
  if width < tlen then
    (strsplit text1 (width - 1)).1 ++ wrap_char
  else if pad then
    text1 ++ List.replicate (width - tlen) ' '
  else text1

/-- A token of the greedy escape-sequence scan: either one whole escape code
of the COLORS table, or one visible character. -/
inductive CTok where
  | color (name : String) (code : Line)
  | vis (c : Char)
deriving DecidableEq

def render : List CTok → Line
  | [] => []
  | .color _ code :: ts => code ++ render ts
  | .vis c :: ts => c :: render ts

def visChars : List CTok → Line
  | [] => []
  | .color _ _ :: ts => visChars ts
  | .vis c :: ts => c :: visChars ts

/-- Greedy tokenization of a string into escape codes and visible chars,
with the same scan as `strsplit` (fuel as above). -/
def tokenizeAux : Nat → Line → List CTok
  | _, [] => []
  | 0, _ => []
  | fuel + 1, c :: rest =>
    match findColor (c :: rest) with
    | some (name, k) => .color name ((c :: rest).take k) :: tokenizeAux fuel ((c :: rest).drop k)
    | none => .vis c :: tokenizeAux fuel rest

def tokenize (text : Line) : List CTok := tokenizeAux text.length text

/-- Visible characters of a string (the chars outside COLORS escape codes). -/
def visStr (text : Line) : Line := visChars (tokenize text)

/-- Wellformedness of a token list as produced by the greedy scan: color
tokens carry genuine table entries, and at a visible char no escape code of
the table starts. -/
def TokensOK : List CTok → Prop
  | [] => True
  | .color name code :: rest => (name, code) ∈ COLORS ∧ TokensOK rest
  | .vis c :: rest => findColor (c :: render rest) = none ∧ TokensOK rest

/-- A tail `z` is safe to append after a token boundary when its first char
occurs in no escape code of the table at a position past the first:
then no code can span the boundary. -/
def SafeTail (z : Line) : Prop :=
  ∀ p ∈ COLORS, ∀ x ∈ z.take 1, x ∉ p.2.drop 1

/-! ### Python string helpers used by the parser -/

def pyStartswith (pre : String) (l : Line) : Bool := pre.toList.isPrefixOf l

/-- Python whitespace for `strip`/`split` (ASCII part; the lines handled
here contain no other whitespace). -/
def isPyWs (c : Char) : Bool :=
  c == ' ' || c == '\t' || c == '\n' || c == '\r' || c == '\x0b' || c == '\x0c'

def pyRstrip (l : Line) : Line := (l.reverse.dropWhile isPyWs).reverse

def pyLstrip (l : Line) : Line := l.dropWhile isPyWs

def pyStrip (l : Line) : Line := pyRstrip (pyLstrip l)

/-- Python `str.find(sub)` (auxiliary with running index). -/
def pyFindAux (sub : Line) : Line → Nat → Int
  | [], i => if sub.isPrefixOf [] then (i : Int) else -1
  | c :: t, i => if sub.isPrefixOf (c :: t) then (i : Int) else pyFindAux sub t (i + 1)

def pyFind (sub l : Line) : Int := pyFindAux sub l 0

/-- Python `str.split()` with no argument: split on whitespace runs,
dropping empty pieces (auxiliary carries the reversed current chunk). -/
def pySplitWsAux : Line → Line → List Line
  | [], acc => if acc.isEmpty then [] else [acc.reverse]
  | c :: rest, acc =>
    if isPyWs c then
      if acc.isEmpty then pySplitWsAux rest []
      else acc.reverse :: pySplitWsAux rest []
    else pySplitWsAux rest (c :: acc)

def pySplitWs (l : Line) : List Line := pySplitWsAux l []

/-- Python `str.split(',')`: split on every comma, keeping empty pieces. -/
def pySplitComma : Line → List Line
  | [] => [[]]
  | c :: rest =>
    if c = ',' then [] :: pySplitComma rest
    else
      match pySplitComma rest with
      | g :: gs => (c :: g) :: gs
      | [] => [[c]]

def digitsVal (ds : Line) : Nat := ds.foldl (fun a c => a * 10 + (c.toNat - 48)) 0

/-- Python `int(s)` on the strings reachable here: optional sign then a
nonempty ASCII digit run, with surrounding whitespace stripped (digit-group
underscores and non-ASCII digits are not modelled). -/
def pyInt (s : Line) : Option Int :=
  match pyStrip s with
  | '+' :: ds =>
      if !ds.isEmpty && ds.all (fun c => c.isDigit) then some (digitsVal ds : Int) else none
  | '-' :: ds =>
      if !ds.isEmpty && ds.all (fun c => c.isDigit) then some (-(digitsVal ds : Int)) else none
  | ds =>
      if !ds.isEmpty && ds.all (fun c => c.isDigit) then some (digitsVal ds : Int) else none

/-! ### Hunk and UnifiedDiff -/

structure Hunk where
  hunk_headers : List Line
  hunk_meta : Line
  old_addr : Int × Int
  new_addr : Int × Int
  hunk_list : List (Char × Line)
deriving DecidableEq

def Hunk.get_old_text (h : Hunk) : List Line :=
  (h.hunk_list.filter (fun p => p.1 != '+')).map Prod.snd

def Hunk.get_new_text (h : Hunk) : List Line :=
  (h.hunk_list.filter (fun p => p.1 != '-')).map Prod.snd

def Hunk.is_completed (h : Hunk) : Bool :=
  h.old_addr.2 == (h.get_old_text.length : Int) &&
  h.new_addr.2 == (h.get_new_text.length : Int)

/-- Lines of a hunk carrying a given tag char. -/
def countTag (h : Hunk) (t : Char) : Nat := (h.hunk_list.filter (fun p => p.1 == t)).length

structure UnifiedDiff where
  headers : List Line
  old_path : Option Line
  new_path : Option Line
  hunks : List Hunk
deriving DecidableEq

/-! ### Line-class predicates (methods of UnifiedDiff in the source) -/

def is_old_path (l : Line) : Bool := pyStartswith "--- " l

def is_new_path (l : Line) : Bool := pyStartswith "+++ " l

def is_hunk_meta (l : Line) : Bool :=
  (pyStartswith "@@ -" l && decide ((8 : Int) ≤ pyFind " @@".toList l)) ||
  (pyStartswith "## -" l && decide ((8 : Int) ≤ pyFind " ##".toList l))

/-- `parse_hunk_meta` of the source; `none` models the IndexError and
ValueError exits that the caller turns into the invalid-hunk-meta error. -/
def parse_hunk_meta (hunk_meta : Line) : Option ((Int × Int) × (Int × Int)) := do
  let parts := pySplitWs hunk_meta
  let f1 ← parts[1]?
  let a := pySplitComma f1
  let old_addr ← (do
    if 1 < a.length then
      let x ← pyInt (a.headD []).tail
      let y ← pyInt (a[1]?.getD [])
      pure ((x, y) : Int × Int)
    else
      let x ← pyInt (a.headD []).tail
      pure ((x, (1 : Int)) : Int × Int))
  let f2 ← parts[2]?
  let b := pySplitComma f2
  let new_addr ← (do
    if 1 < b.length then
      let x ← pyInt (b.headD []).tail
      let y ← pyInt (b[1]?.getD [])
      pure ((x, y) : Int × Int)
    else
      let x ← pyInt (b.headD []).tail
      pure ((x, (1 : Int)) : Int × Int))
  pure (old_addr, new_addr)

/-- `parse_hunk_line`; callers only pass nonempty lines, so the default for
the head never shows. -/
def parse_hunk_line (l : Line) : Char × Line := (l.headD ' ', l.tail)

def is_old (l : Line) : Bool :=
  pyStartswith "-" l && !is_old_path l && !(pyRstrip l == List.replicate 72 '-')

def is_new (l : Line) : Bool := pyStartswith "+" l && !is_new_path l

def is_common (l : Line) : Bool := pyStartswith " " l

def is_eof (l : Line) : Bool := pyStartswith "\\ No newline at end of" l

def is_only_in_dir (l : Line) : Bool := pyStartswith "Only in " l

/-- `re.match('^Binary files .* differ$', line.rstrip())`: the stripped line
starts with `Binary files `, ends with ` differ`, and is long enough that
the two do not overlap. -/
def is_binary_differ (l : Line) : Bool :=
  let s := pyRstrip l
  pyStartswith "Binary files " s && " differ".toList.isSuffixOf s && decide (20 ≤ s.length)

/-! ### The parser state machine of get_diff_generator -/

/-- Python truthiness of the optional path fields (`None` and the empty
string are falsy). -/
def pyTruthyOpt : Option Line → Bool
  | none => false
  | some s => !s.isEmpty

/-- `diff._old_path and diff._new_path and diff._hunks`: the current diff is
completely constructed. -/
def formedB (d : UnifiedDiff) : Bool :=
  pyTruthyOpt d.old_path && pyTruthyOpt d.new_path && !d.hunks.isEmpty

/-- `not diff._hunks or diff._hunks[-1].is_completed()`. -/
def lastHunkDone (d : UnifiedDiff) : Bool :=
  match d.hunks.getLast? with
  | none => true
  | some h => h.is_completed

/-- `diff._hunks[-1].append(x)` (callers that do not guard nonemptiness are
modelled with an explicit index error in `parseStep`). -/
def pyAppendLast (hs : List Hunk) (x : Char × Line) : List Hunk :=
  match hs.getLast? with
  | none => hs
  | some h => hs.dropLast ++ [{ h with hunk_list := h.hunk_list ++ [x] }]

def withLastAppended (d : UnifiedDiff) (x : Char × Line) : UnifiedDiff :=
  { d with hunks := pyAppendLast d.hunks x }

inductive ParseErr where
  | invalidHunkMeta (line : Line)
  | indexError
  | assertionError
deriving DecidableEq

/-- One iteration of the line loop of `get_diff_generator`: from the current
diff and pending headers buffer, produce the yielded diffs and the next
state. -/
def parseStep (diff : UnifiedDiff) (headers : List Line) (line : Line) :
    Except ParseErr (List UnifiedDiff × UnifiedDiff × List Line) :=
  if is_old_path line then
    if lastHunkDone diff then
      .ok ((if formedB diff then [diff] else []),
           ⟨headers, some line, none, []⟩, [])
    else
      .ok ([], withLastAppended diff (parse_hunk_line line), headers)
  else if is_new_path line && pyTruthyOpt diff.old_path then
    if !pyTruthyOpt diff.new_path then
      .ok ([], { diff with new_path := some line }, headers)
    else if diff.hunks.isEmpty then
      .error .indexError
    else
      .ok ([], withLastAppended diff (parse_hunk_line line), headers)
  else if is_hunk_meta line then
    match parse_hunk_meta line with
    | some (old_addr, new_addr) =>
        .ok ([], { diff with hunks := diff.hunks ++ [⟨headers, line, old_addr, new_addr, []⟩] },
             [])
    | none => .error (.invalidHunkMeta line)
  else if !diff.hunks.isEmpty && headers.isEmpty &&
          (is_old line || is_new line || is_common line) then
    .ok ([], withLastAppended diff (parse_hunk_line line), headers)
  else if is_eof line then
    .ok ([], diff, headers)
  else if is_only_in_dir line || is_binary_differ line then
    .ok ((if formedB diff then [diff] else []) ++ [⟨headers ++ [line], some [], some [], []⟩],
         ⟨[], none, none, []⟩, [])
  else
    .ok ([], diff, headers ++ [line])

/-- The line loop folded over a list of (decoded) lines, collecting the
yielded diffs. -/
def parseFold : UnifiedDiff → List Line → List Line →
    Except ParseErr (List UnifiedDiff × UnifiedDiff × List Line)
  | diff, headers, [] => .ok ([], diff, headers)
  | diff, headers, l :: ls =>
    match parseStep diff headers l with
    | .error e => .error e
    | .ok (out, d2, h2) =>
      match parseFold d2 h2 ls with
      | .error e => .error e
      | .ok (out2, d3, h3) => .ok (out ++ out2, d3, h3)

/-- Dangling headers are yielded as one final header-only diff. -/
def trailingHeaders (headers : List Line) : List UnifiedDiff :=
  if headers.isEmpty then [] else [⟨headers, some [], some [], []⟩]

/-- End-of-input code of `get_diff_generator`: asserts, then yields the
in-progress diff and any dangling headers. -/
def finalizeParse (diff : UnifiedDiff) (headers : List Line) :
    Except ParseErr (List UnifiedDiff) :=
  if pyTruthyOpt diff.old_path then
    if diff.new_path.isNone then .error .assertionError
    else
      match diff.hunks.getLast? with
      | some h =>
        if h.hunk_meta.isEmpty then .error .assertionError
        else if h.hunk_list.isEmpty then .error .assertionError
        else .ok ([diff] ++ trailingHeaders headers)
      | none => .ok ([diff] ++ trailingHeaders headers)
  else .ok (trailingHeaders headers)

/-- `get_diff_generator` over a whole (decoded) line list. -/
def getDiffs (lines : List Line) : Except ParseErr (List UnifiedDiff) :=
  match parseFold ⟨[], none, none, []⟩ [] lines with
  | .error e => .error e
  | .ok (out, d, h) =>
    match finalizeParse d h with
    | .error e => .error e
    | .ok fin => .ok (out ++ fin)

/-! ### Side-by-side gutter width -/

/-- Decimal digit count of a natural number (fuel-based; `len(str(n))`). -/
def digitsLenAux : Nat → Nat → Nat
  | 0, _ => 1
  | fuel + 1, n => if n < 10 then 1 else 1 + digitsLenAux fuel (n / 10)

def digitsLen (n : Nat) : Nat := digitsLenAux n n

/-- `len(str(n))` for a Python int (a minus sign counts one char). -/
def pyStrLenInt (n : Int) : Nat :=
  if n < 0 then 1 + digitsLen (-n).toNat else digitsLen n.toNat

/-- The gutter width computed by `_markup_side_by_side`: from the LAST hunk
of the diff (zero addresses when there is no hunk). -/
def numWidth (d : UnifiedDiff) : Nat :=
  match d.hunks.getLast? with
  | some h =>
    max (pyStrLenInt (h.old_addr.1 + h.old_addr.2 - 1))
        (pyStrLenInt (h.new_addr.1 + h.new_addr.2 - 1))
  | none => max (pyStrLenInt 0) (pyStrLenInt 0)

/-- Digit width needed by one hunk (its last covered address on either
side). -/
def hunkAddrWidth (h : Hunk) : Nat :=
  max (pyStrLenInt (h.old_addr.1 + h.old_addr.2 - 1))
      (pyStrLenInt (h.new_addr.1 + h.new_addr.2 - 1))

/-- Follows the words of the spec claim (for comparison with `numWidth`):
the maximum over ALL hunks of the digit width of the last covered address
on either side; the width of `0` when there are no hunks. -/
def specNumWidth (d : UnifiedDiff) : Nat :=
  match d.hunks with
  | [] => pyStrLenInt 0
  | hs => (hs.map hunkAddrWidth).foldl max 0

/-! ### decode -/

abbrev Byte := Fin 256

def isContByte (b : Byte) : Bool := 128 ≤ b.val && b.val < 192

/-- Strict UTF-8 decoding of a byte list (as the utf-8 codec: overlong
forms, surrogates and values beyond U+10FFFF are rejected). -/
def utf8Decode : List Byte → Option (List Char)
  | [] => some []
  | b :: rest =>
    if b.val < 128 then
      (utf8Decode rest).map (fun s => Char.ofNat b.val :: s)
    else if 194 ≤ b.val && b.val ≤ 223 then
      match rest with
      | b2 :: rest2 =>
        if isContByte b2 then
          (utf8Decode rest2).map (fun s =>
            Char.ofNat ((b.val - 192) * 64 + (b2.val - 128)) :: s)
        else none
      | [] => none
    else if 224 ≤ b.val && b.val ≤ 239 then
      match rest with
      | b2 :: b3 :: rest2 =>
        if (if b.val = 224 then 160 ≤ b2.val && b2.val < 192
            else if b.val = 237 then 128 ≤ b2.val && b2.val < 160
            else isContByte b2) && isContByte b3 then
          (utf8Decode rest2).map (fun s =>
            Char.ofNat ((b.val - 224) * 4096 + (b2.val - 128) * 64 + (b3.val - 128)) :: s)
        else none
      | _ => none
    else if 240 ≤ b.val && b.val ≤ 244 then
      match rest with
      | b2 :: b3 :: b4 :: rest2 =>
        if (if b.val = 240 then 144 ≤ b2.val && b2.val < 192
            else if b.val = 244 then 128 ≤ b2.val && b2.val < 144
            else isContByte b2) && isContByte b3 && isContByte b4 then
          (utf8Decode rest2).map (fun s =>
            Char.ofNat ((b.val - 240) * 262144 + (b2.val - 128) * 4096 +
              (b3.val - 128) * 64 + (b4.val - 128)) :: s)
        else none
      | _ => none
    else none

/-- Latin-1 decoding: total, every byte is a code point. -/
def latin1Chars (bs : List Byte) : Line := bs.map (fun b => Char.ofNat b.val)

def undecodableSentinel : Line := "*** ydiff: undecodable bytes ***\n".toList

/-- One `line.decode(encoding)` attempt of the source loop. -/
def tryEncoding (enc : String) (bs : List Byte) : Option Line :=
  if enc = "utf-8" then utf8Decode bs
  else if enc = "latin1" then some (latin1Chars bs)
  else none

/-- The `for encoding in ['utf-8', 'latin1']` loop of `decode`, falling
through to the sentinel line. -/
def decodeBytes : List String → List Byte → Line
  | [], _ => undecodableSentinel
  | e :: es, bs =>
    match tryEncoding e bs with
    | some s => s
    | none => decodeBytes es bs

/-- `decode(line)`: text is returned unchanged, bytes go through the codec
loop. -/
def decode : Sum Line (List Byte) → Line
  | .inl s => s
  | .inr bs => decodeBytes ["utf-8", "latin1"] bs
end Ydiff

deriving instance DecidableEq for Except

namespace Ydiff

/-! ## Lemmas about the escape-aware splitter -/

lemma isPrefixOf_iff_exists (a b : Line) : a.isPrefixOf b = true ↔ ∃ t, b = a ++ t := by
  induction a generalizing b with
  | nil => simp [List.isPrefixOf]
  | cons x xs ih =>
    cases b with
    | nil => simp [List.isPrefixOf]
    | cons y ys =>
      simp only [List.isPrefixOf, Bool.and_eq_true, beq_iff_eq, ih, List.cons_append,
        List.cons.injEq]
      constructor
      · rintro ⟨h1, t, h2⟩; exact ⟨t, h1.symm, h2⟩
      · rintro ⟨t, h1, h2⟩; exact ⟨h1.symm, t, h2⟩

lemma findColorIn_eq_some {tbl : List (String × Line)} {t : Line} {n : String} {k : Nat}
    (h : findColorIn tbl t = some (n, k)) :
    ∃ c, (n, c) ∈ tbl ∧ k = c.length ∧ ∃ r, t = c ++ r := by
  induction tbl with
  | nil => simp [findColorIn] at h
  | cons p tbl ih =>
    obtain ⟨pn, pc⟩ := p
    rw [findColorIn] at h
    split at h
    · rename_i hpre
      obtain ⟨r, hr⟩ := (isPrefixOf_iff_exists _ _).1 hpre
      simp only [Option.some.injEq, Prod.mk.injEq] at h
      exact ⟨pc, by simp [h.1.symm], h.2.symm, r, hr⟩
    · obtain ⟨c, hc1, hc2, hc3⟩ := ih h
      exact ⟨c, List.mem_cons_of_mem _ hc1, hc2, hc3⟩

lemma findColorIn_ne_none {tbl : List (String × Line)} {t c : Line} {n : String} {r : Line}
    (hmem : (n, c) ∈ tbl) (ht : t = c ++ r) : findColorIn tbl t ≠ none := by
  induction tbl with
  | nil => simp at hmem
  | cons p tbl ih =>
    obtain ⟨pn, pc⟩ := p
    rw [findColorIn]
    split
    · simp
    · rename_i hpre
      rcases List.mem_cons.1 hmem with heq | hmem2
      · exfalso
        obtain ⟨h1, h2⟩ := Prod.mk.injEq .. ▸ heq
        apply hpre
        rw [isPrefixOf_iff_exists]
        exact ⟨r, by rw [ht, h2]⟩
      · exact ih hmem2

lemma codes_nonempty : ∀ p ∈ COLORS, p.2 ≠ [] := by decide

lemma findColor_pos {t : Line} {n : String} {k : Nat} (h : findColor t = some (n, k)) :
    1 ≤ k ∧ k ≤ t.length := by
  obtain ⟨c, hc1, hc2, r, hr⟩ := findColorIn_eq_some h
  have hne : c ≠ [] := codes_nonempty _ hc1
  have h1 : 1 ≤ c.length := by
    cases c with
    | nil => exact absurd rfl hne
    | cons _ _ => simp
  subst hr hc2
  simp only [List.length_append]
  omega

lemma codes_mutual_prefix :
    ∀ p ∈ COLORS, ∀ q ∈ COLORS, p.2.isPrefixOf q.2 = true → p = q := by decide

lemma findColorIn_code {tbl : List (String × Line)}
    (hpf : ∀ p ∈ tbl, ∀ q ∈ tbl, p.2.isPrefixOf q.2 = true → p = q)
    {n : String} {c : Line} (hmem : (n, c) ∈ tbl) (r : Line) :
    findColorIn tbl (c ++ r) = some (n, c.length) := by
  induction tbl with
  | nil => simp at hmem
  | cons p tbl ih =>
    obtain ⟨pn, pc⟩ := p
    by_cases hph : (pn, pc) = (n, c)
    · obtain ⟨h1, h2⟩ := Prod.mk.injEq .. ▸ hph
      rw [findColorIn]
      have : pc.isPrefixOf (c ++ r) = true := by
        rw [isPrefixOf_iff_exists]; exact ⟨r, by rw [h2]⟩
      simp [this, h1, h2]
    · have hmem2 : (n, c) ∈ tbl := by
        rcases List.mem_cons.1 hmem with heq | h2
        · exact absurd heq.symm hph
        · exact h2
      rw [findColorIn]
      have hnp : pc.isPrefixOf (c ++ r) = false := by
        by_contra hcon
        have hpre : pc.isPrefixOf (c ++ r) = true := by
          cases hb : pc.isPrefixOf (c ++ r) with
          | true => rfl
          | false => exact absurd hb hcon
        obtain ⟨t2, ht2⟩ := (isPrefixOf_iff_exists _ _).1 hpre
        rcases List.append_eq_append_iff.1 ht2 with ⟨a, ha1, _⟩ | ⟨a, ha1, _⟩
        · -- pc = c ++ a, so c is a prefix of pc
          have : (n, c).2.isPrefixOf (pn, pc).2 = true := by
            simp only; rw [isPrefixOf_iff_exists]; exact ⟨a, ha1⟩
          have := hpf _ hmem _ (List.mem_cons_self _ _) this
          exact hph (by rw [this])
        · -- c = pc ++ a, so pc is a prefix of c
          have : (pn, pc).2.isPrefixOf (n, c).2 = true := by
            simp only; rw [isPrefixOf_iff_exists]; exact ⟨a, ha1⟩
          have := hpf _ (List.mem_cons_self _ _) _ hmem this
          exact hph this
      rw [hnp]
      simp only [Bool.false_eq_true, if_false]
      exact ih (fun p hp q hq => hpf p (List.mem_cons_of_mem _ hp) q (List.mem_cons_of_mem _ hq))
        hmem2

lemma findColor_code {n : String} {c : Line} (hmem : (n, c) ∈ COLORS) (r : Line) :
    findColor (c ++ r) = some (n, c.length) :=
  findColorIn_code codes_mutual_prefix hmem r

lemma findColorIn_none_no_code {tbl : List (String × Line)} {t : Line}
    (h : findColorIn tbl t = none) {n : String} {c : Line} (hmem : (n, c) ∈ tbl) :
    ∀ r, t ≠ c ++ r := by
  intro r hr
  exact findColorIn_ne_none hmem hr h

/-- No escape code of the table can begin at a visible char even after the
continuation is replaced past a token boundary by a safe tail. -/
lemma findColor_none_extend {c : Char} {u z : Line}
    (h : findColor (c :: u) = none) (hz : SafeTail z) :
    findColor (c :: (u ++ z)) = none := by
  cases hfc : findColor (c :: (u ++ z)) with
  | none => rfl
  | some v =>
    exfalso
    obtain ⟨n, k⟩ := v
    obtain ⟨code, hmem, hk, r, hr⟩ := findColorIn_eq_some hfc
    by_cases hlen : code.length ≤ u.length + 1
    · -- the matching code lies inside c :: u, contradicting h
      have htake : (c :: (u ++ z)).take code.length = code := by
        rw [hr, List.take_left]
      have htake2 : (c :: (u ++ z)).take code.length = (c :: u).take code.length := by
        have : c :: (u ++ z) = (c :: u) ++ z := by simp
        rw [this, List.take_append_of_le_length (by simpa using hlen)]
      have hsplit : c :: u = code ++ (c :: u).drop code.length := by
        conv_lhs => rw [← List.take_append_drop code.length (c :: u)]
        rw [← htake2, htake]
      exact findColorIn_none_no_code h hmem _ hsplit
    · -- the code would span past u into z: its char there is the head of z
      push_neg at hlen
      have hzlen : u.length + 1 < (c :: (u ++ z)).length := by
        rw [hr, List.length_append]
        have : 1 ≤ r.length + 1 := by omega
        omega
      have hzne : z ≠ [] := by
        intro hznil
        subst hznil
        simp at hzlen
      obtain ⟨z0, zrest, hzeq⟩ : ∃ z0 zrest, z = z0 :: zrest := by
        cases z with
        | nil => exact absurd rfl hzne
        | cons a b => exact ⟨a, b, rfl⟩
      have hidx : (c :: (u ++ z))[u.length + 1]? = some z0 := by
        have : c :: (u ++ z) = (c :: u) ++ z := by simp
        rw [this, List.getElem?_append_right (by simp)]
        simp [hzeq]
      have hidx2 : (c :: (u ++ z))[u.length + 1]? = code[u.length + 1]? := by
        rw [hr, List.getElem?_append_left hlen]
      have hcodemem : z0 ∈ code.drop 1 := by
        have hd : (code.drop 1)[u.length]? = some z0 := by
          rw [List.getElem?_drop]
          have : 1 + u.length = u.length + 1 := by omega
          rw [this, ← hidx2, hidx]
        rcases List.getElem?_eq_some.1 hd with ⟨hlt, hget⟩
        rw [← hget]
        exact List.getElem_mem hlt
      have := hz _ hmem z0 (by simp [hzeq])
      exact this hcodemem

/-! ## Tokenization lemmas -/

lemma render_append (a b : List CTok) : render (a ++ b) = render a ++ render b := by
  induction a with
  | nil => simp [render]
  | cons t ts ih =>
    cases t with
    | color n c => simp [render, ih]
    | vis c => simp [render, ih]

lemma visChars_append (a b : List CTok) : visChars (a ++ b) = visChars a ++ visChars b := by
  induction a with
  | nil => simp [visChars]
  | cons t ts ih =>
    cases t with
    | color n c => simp [visChars, ih]
    | vis c => simp [visChars, ih]

lemma tokenizeAux_congr : ∀ (f1 f2 : Nat) (t : Line), t.length ≤ f1 → t.length ≤ f2 →
    tokenizeAux f1 t = tokenizeAux f2 t := by
  intro f1
  induction f1 with
  | zero =>
    intro f2 t h1 _
    have : t = [] := by
      cases t with
      | nil => rfl
      | cons a b => simp at h1
    subst this
    cases f2 <;> simp [tokenizeAux]
  | succ f1 ih =>
    intro f2 t h1 h2
    cases t with
    | nil => cases f2 <;> simp [tokenizeAux]
    | cons c rest =>
      cases f2 with
      | zero => simp at h2
      | succ f2 =>
        simp only [List.length_cons] at h1 h2
        rw [tokenizeAux, tokenizeAux]
        cases hfc : findColor (c :: rest) with
        | none =>
          simp only
          rw [ih f2 rest (by omega) (by omega)]
        | some v =>
          obtain ⟨n, k⟩ := v
          simp only
          have hk := findColor_pos hfc
          simp only [List.length_cons] at hk
          have hdl : ((c :: rest).drop k).length = rest.length + 1 - k := by
            simp [List.length_drop]
          rw [ih f2 ((c :: rest).drop k) (by omega) (by omega)]

lemma tokenize_nil : tokenize [] = [] := rfl

lemma tokenize_cons_color {c : Char} {rest : Line} {n : String} {k : Nat}
    (hfc : findColor (c :: rest) = some (n, k)) :
    tokenize (c :: rest) = .color n ((c :: rest).take k) :: tokenize ((c :: rest).drop k) := by
  have hk := findColor_pos hfc
  simp only [List.length_cons] at hk
  have hdl : ((c :: rest).drop k).length = rest.length + 1 - k := by
    simp [List.length_drop]
  rw [tokenize, show (c :: rest).length = rest.length + 1 by simp, tokenizeAux, hfc]
  simp only [tokenize]
  rw [tokenizeAux_congr rest.length ((c :: rest).drop k).length ((c :: rest).drop k)
    (by omega) (le_refl _)]

lemma tokenize_cons_vis {c : Char} {rest : Line} (hfc : findColor (c :: rest) = none) :
    tokenize (c :: rest) = .vis c :: tokenize rest := by
  rw [tokenize, show (c :: rest).length = rest.length + 1 by simp, tokenizeAux, hfc]
  rfl

lemma render_tokenize (t : Line) : render (tokenize t) = t := by
  have key : ∀ (fuel : Nat) (t : Line), t.length ≤ fuel → render (tokenize t) = t := by
    intro fuel
    induction fuel with
    | zero =>
      intro t h
      have : t = [] := by
        cases t with
        | nil => rfl
        | cons a b => simp at h
      subst this
      simp [tokenize, tokenizeAux, render]
    | succ fuel ih =>
      intro t h
      cases t with
      | nil => simp [tokenize, tokenizeAux, render]
      | cons c rest =>
        cases hfc : findColor (c :: rest) with
        | none =>
          rw [tokenize_cons_vis hfc, render, ih rest (by simpa using h)]
        | some v =>
          obtain ⟨n, k⟩ := v
          have hk := findColor_pos hfc
          simp only [List.length_cons] at hk h
          have hdl : ((c :: rest).drop k).length = rest.length + 1 - k := by
            simp [List.length_drop]
          rw [tokenize_cons_color hfc, render, ih ((c :: rest).drop k) (by omega)]
          exact List.take_append_drop _ _
  exact key t.length t (le_refl _)

lemma findColor_none_shrink {c : Char} {u v : Line}
    (h : findColor (c :: (u ++ v)) = none) : findColor (c :: u) = none := by
  cases hc : findColor (c :: u) with
  | none => rfl
  | some w =>
    exfalso
    obtain ⟨n, k⟩ := w
    obtain ⟨code, hmem, _, r, hr⟩ := findColorIn_eq_some hc
    have : c :: (u ++ v) = code ++ (r ++ v) := by
      have : c :: (u ++ v) = (c :: u) ++ v := by simp
      rw [this, hr, List.append_assoc]
    exact findColorIn_ne_none hmem this h

lemma tokensOK_append_right {a b : List CTok} (h : TokensOK (a ++ b)) : TokensOK b := by
  induction a with
  | nil => exact h
  | cons t ts ih =>
    cases t with
    | color n c => exact ih h.2
    | vis c => exact ih h.2

lemma tokensOK_append_left {a b : List CTok} (h : TokensOK (a ++ b)) : TokensOK a := by
  induction a with
  | nil => trivial
  | cons t ts ih =>
    cases t with
    | color n c => exact ⟨h.1, ih h.2⟩
    | vis c =>
      refine ⟨?_, ih h.2⟩
      have h1 : findColor (c :: render (ts ++ b)) = none := h.1
      rw [render_append] at h1
      exact findColor_none_shrink h1

lemma tokensOK_tokenize (t : Line) : TokensOK (tokenize t) := by
  have key : ∀ (fuel : Nat) (t : Line), t.length ≤ fuel → TokensOK (tokenize t) := by
    intro fuel
    induction fuel with
    | zero =>
      intro t h
      have : t = [] := by
        cases t with
        | nil => rfl
        | cons a b => simp at h
      subst this
      trivial
    | succ fuel ih =>
      intro t h
      cases t with
      | nil => trivial
      | cons c rest =>
        simp only [List.length_cons] at h
        cases hfc : findColor (c :: rest) with
        | none =>
          rw [tokenize_cons_vis hfc]
          refine ⟨?_, ih rest (by omega)⟩
          rw [render_tokenize]
          exact hfc
        | some v =>
          obtain ⟨n, k⟩ := v
          have hk := findColor_pos hfc
          simp only [List.length_cons] at hk
          rw [tokenize_cons_color hfc]
          obtain ⟨code, hmem, hklen, r, hr⟩ := findColorIn_eq_some hfc
          have htake : (c :: rest).take k = code := by
            rw [hr, hklen, List.take_left]
          refine ⟨by rw [htake]; exact hmem, ?_⟩
          have hdl : ((c :: rest).drop k).length = rest.length + 1 - k := by
            simp [List.length_drop]
          exact ih _ (by omega)
  exact key t.length t (le_refl _)

/-- Rescanning a rendered wellformed token prefix with a safe tail appended
finds exactly the same tokens again: the greedy scan cannot merge across
the boundary. -/
lemma tokenize_render_append {T : List CTok} {z : Line}
    (hok : TokensOK T) (hz : SafeTail z) :
    tokenize (render T ++ z) = T ++ tokenize z := by
  induction T with
  | nil => simp [render]
  | cons t ts ih =>
    cases t with
    | color n code =>
      obtain ⟨hmem, hrest⟩ := hok
      have hcne : code ≠ [] := codes_nonempty _ hmem
      obtain ⟨c0, ctail, hcode⟩ : ∃ c0 ctail, code = c0 :: ctail := by
        cases code with
        | nil => exact absurd rfl hcne
        | cons a b => exact ⟨a, b, rfl⟩
      have heq : render (CTok.color n code :: ts) ++ z = c0 :: (ctail ++ (render ts ++ z)) := by
        rw [render, hcode]
        simp
      have hfc : findColor (c0 :: (ctail ++ (render ts ++ z))) = some (n, code.length) := by
        have : c0 :: (ctail ++ (render ts ++ z)) = code ++ (render ts ++ z) := by
          rw [hcode]; simp
        rw [this]
        exact findColor_code hmem _
      rw [heq, tokenize_cons_color hfc]
      have hlist : c0 :: (ctail ++ (render ts ++ z)) = code ++ (render ts ++ z) := by
        rw [hcode]; simp
      have htake : (c0 :: (ctail ++ (render ts ++ z))).take code.length = code := by
        rw [hlist, List.take_left]
      have hdrop : (c0 :: (ctail ++ (render ts ++ z))).drop code.length = render ts ++ z := by
        rw [hlist, List.drop_left]
      rw [htake, hdrop, ih hrest]
      simp
    | vis c =>
      obtain ⟨hnone, hrest⟩ := hok
      have hfc : findColor (c :: (render ts ++ z)) = none :=
        findColor_none_extend hnone hz
      have heq : render (CTok.vis c :: ts) ++ z = c :: (render ts ++ z) := by
        rw [render]; simp
      rw [heq, tokenize_cons_vis hfc, ih hrest]
      simp

lemma safeTail_nil : SafeTail [] := by
  intro p _ x hx
  simp at hx

lemma safeTail_reset : SafeTail (colorCode "reset") := by
  unfold SafeTail
  decide

lemma safeTail_spaces (n : Nat) : SafeTail (List.replicate n ' ') := by
  cases n with
  | zero => exact safeTail_nil
  | succ m =>
    intro p hp x hx
    have hxx : x = ' ' := by simpa using hx
    subst hxx
    exact (by decide : ∀ p ∈ COLORS, ' ' ∉ p.2.drop 1) p hp

lemma colorCode_mem {n : String} (h : ∃ c, (n, c) ∈ COLORS) : (n, colorCode n) ∈ COLORS := by
  obtain ⟨c, hc⟩ := h
  unfold colorCode
  cases hf : COLORS.find? (fun p => p.1 == n) with
  | none =>
    exfalso
    have := List.find?_eq_none.1 hf _ hc
    simp at this
  | some p =>
    have hpm := List.mem_of_find?_eq_some hf
    have hpn := List.find?_some hf
    simp only [beq_iff_eq] at hpn
    have : (n, p.2) = p := by
      obtain ⟨p1, p2⟩ := p
      simp only at hpn
      rw [hpn]
    rw [this]
    exact hpm

/-- Full characterisation of the `strsplit` loop: it cuts the token list of
the input at a token boundary `k`, the first piece takes `min` of the width
and the available visible chars, and the remainder is returned untouched
(the cut never happens before a color token). -/
lemma strsplitAux_spec (w : Nat) :
    ∀ (fuel : Nat) (text first : Line) (found : List String) (cnt : Nat),
      text.length ≤ fuel →
    ∃ k f2,
      strsplitAux w fuel text first found cnt =
        (first ++ render ((tokenize text).take k),
         render ((tokenize text).drop k), f2,
         cnt + min (w - cnt) (visChars (tokenize text)).length) ∧
      (visChars ((tokenize text).take k)).length =
        min (w - cnt) (visChars (tokenize text)).length ∧
      ((tokenize text).drop k = [] ∨ ∃ c r2, (tokenize text).drop k = CTok.vis c :: r2) ∧
      (∀ n ∈ f2, n ∈ found ∨ (n ≠ "reset" ∧ ∃ cd, (n, cd) ∈ COLORS)) := by
  intro fuel
  induction fuel with
  | zero =>
    intro text first found cnt h
    have : text = [] := by
      cases text with
      | nil => rfl
      | cons a b => simp at h
    subst this
    refine ⟨0, found, ?_, ?_, ?_, ?_⟩
    · simp [strsplitAux, tokenize_nil, render, visChars]
    · simp [tokenize_nil, visChars]
    · simp [tokenize_nil]
    · intro n hn; exact Or.inl hn
  | succ fuel ih =>
    intro text first found cnt h
    cases text with
    | nil =>
      refine ⟨0, found, ?_, ?_, ?_, ?_⟩
      · simp [strsplitAux, tokenize_nil, render, visChars]
      · simp [tokenize_nil, visChars]
      · simp [tokenize_nil]
      · intro n hn; exact Or.inl hn
    | cons c rest =>
      simp only [List.length_cons] at h
      cases hfc : findColor (c :: rest) with
      | some v =>
        obtain ⟨n0, k0⟩ := v
        have hk0 := findColor_pos hfc
        simp only [List.length_cons] at hk0
        have hdl : ((c :: rest).drop k0).length = rest.length + 1 - k0 := by
          simp [List.length_drop]
        obtain ⟨k1, f2, heq, hvis, hdrop, hmem⟩ :=
          ih ((c :: rest).drop k0) (first ++ (c :: rest).take k0)
            (if n0 = "reset" then [] else found ++ [n0]) cnt (by omega)
        have htok := tokenize_cons_color hfc
        refine ⟨k1 + 1, f2, ?_, ?_, ?_, ?_⟩
        · simp only [strsplitAux, hfc]
          rw [heq, htok]
          simp [render, visChars, List.append_assoc]
        · rw [htok]
          simp only [List.take_succ_cons, visChars]
          exact hvis
        · rw [htok]
          simpa using hdrop
        · intro n hn
          rcases hmem n hn with hin | hgood
          · by_cases hres : n0 = "reset"
            · rw [if_pos hres] at hin
              simp at hin
            · rw [if_neg hres] at hin
              rcases List.mem_append.1 hin with h1 | h2
              · exact Or.inl h1
              · have : n = n0 := by simpa using h2
                subst this
                obtain ⟨cd, hcd, _, _⟩ := findColorIn_eq_some hfc
                exact Or.inr ⟨hres, cd, hcd⟩
          · exact Or.inr hgood
      | none =>
        have htok := tokenize_cons_vis hfc
        by_cases hcnt : w ≤ cnt
        · refine ⟨0, found, ?_, ?_, ?_, ?_⟩
          · simp only [strsplitAux, hfc, if_pos hcnt]
            have hw : w - cnt = 0 := by omega
            simp [render, hw, render_tokenize]
          · have hw : w - cnt = 0 := by omega
            simp [hw, visChars]
          · rw [htok]
            simp
          · intro n hn; exact Or.inl hn
        · obtain ⟨k1, f2, heq, hvis, hdrop, hmem⟩ :=
            ih rest (first ++ [c]) found (cnt + 1) (by omega)
          refine ⟨k1 + 1, f2, ?_, ?_, ?_, ?_⟩
          · simp only [strsplitAux, hfc, if_neg hcnt]
            rw [heq, htok]
            simp only [List.take_succ_cons, List.drop_succ_cons, render, visChars,
              List.length_cons, List.append_assoc, List.cons_append, List.nil_append,
              Prod.mk.injEq]
            refine ⟨trivial, trivial, trivial, by omega⟩
          · rw [htok]
            simp only [List.take_succ_cons, visChars, List.length_cons]
            rw [hvis]
            omega
          · rw [htok]
            simpa using hdrop
          · exact hmem

lemma tokenize_code_append {n : String} {code : Line} (hmem : (n, code) ∈ COLORS) (s : Line) :
    tokenize (code ++ s) = .color n code :: tokenize s := by
  have hcne : code ≠ [] := codes_nonempty _ hmem
  obtain ⟨c0, ctail, hcode⟩ : ∃ c0 ctail, code = c0 :: ctail := by
    cases code with
    | nil => exact absurd rfl hcne
    | cons a b => exact ⟨a, b, rfl⟩
  have hlist : c0 :: (ctail ++ s) = code ++ s := by rw [hcode]; simp
  have hfc : findColor (c0 :: (ctail ++ s)) = some (n, code.length) := by
    rw [hlist]; exact findColor_code hmem _
  have : code ++ s = c0 :: (ctail ++ s) := hlist.symm
  rw [this, tokenize_cons_color hfc, hlist, List.take_left, List.drop_left]

lemma foldl_prepend (l : List String) (s : Line) :
    l.foldl (fun s c => colorCode c ++ s) s = (l.reverse.map colorCode).flatten ++ s := by
  induction l generalizing s with
  | nil => simp
  | cons a l ih =>
    simp only [List.foldl_cons, ih, List.reverse_cons, List.map_append, List.flatten_append]
    simp

lemma tokenize_flat_codes (names : List String) (s : Line)
    (h : ∀ n ∈ names, (n, colorCode n) ∈ COLORS) :
    tokenize ((names.map colorCode).flatten ++ s) =
      names.map (fun n => CTok.color n (colorCode n)) ++ tokenize s := by
  induction names with
  | nil => simp
  | cons n ns ih =>
    have h1 : (n, colorCode n) ∈ COLORS := h n (List.mem_cons_self _ _)
    simp only [List.map_cons, List.flatten_cons, List.append_assoc]
    rw [tokenize_code_append h1, ih (fun m hm => h m (List.mem_cons_of_mem _ hm))]
    simp

lemma visChars_map_color (names : List String) (ts : List CTok) :
    visChars (names.map (fun n => CTok.color n (colorCode n)) ++ ts) = visChars ts := by
  induction names with
  | nil => simp
  | cons n ns ih => simpa [visChars] using ih

lemma tokenize_reset : tokenize (colorCode "reset") =
    [CTok.color "reset" (colorCode "reset")] := by decide

/-- Full behaviour of `strsplit`: the cut is at a token boundary `k` of the
greedy tokenization, the count is `min` of width and total visible length,
the decorations are one reset appended and reopened colors prefixed, and
the visible contents of the two pieces are exactly a take/drop of the
visible content of the input. -/
lemma strsplit_full (text : Line) (w : Nat) :
    ∃ (k : Nat) (names : List String),
      (strsplit text w).2.2 = min w (visStr text).length ∧
      ((strsplit text w).1 = render ((tokenize text).take k) ∨
       (strsplit text w).1 = render ((tokenize text).take k) ++ colorCode "reset") ∧
      (strsplit text w).2.1 =
        (names.map colorCode).flatten ++ render ((tokenize text).drop k) ∧
      (∀ n ∈ names, n ≠ "reset" ∧ (n, colorCode n) ∈ COLORS) ∧
      render ((tokenize text).take k) ++ render ((tokenize text).drop k) = text ∧
      visStr (strsplit text w).1 = (visStr text).take (min w (visStr text).length) ∧
      visStr (strsplit text w).2.1 = (visStr text).drop (min w (visStr text).length) ∧
      visChars ((tokenize text).drop k) = (visStr text).drop (min w (visStr text).length) ∧
      ((tokenize text).drop k = [] ∨ ∃ c r2, (tokenize text).drop k = CTok.vis c :: r2) := by
  obtain ⟨k, f2, heq, hvis, hdropshape, hmem⟩ :=
    strsplitAux_spec w text.length text [] [] 0 (le_refl _)
  simp only [Nat.sub_zero, Nat.zero_add] at heq hvis
  have hokT : TokensOK (tokenize text) := tokensOK_tokenize text
  have hsplitT : (tokenize text).take k ++ (tokenize text).drop k = tokenize text :=
    List.take_append_drop _ _
  have hokTake : TokensOK ((tokenize text).take k) := by
    apply tokensOK_append_left (b := (tokenize text).drop k)
    rw [hsplitT]; exact hokT
  have hokDrop : TokensOK ((tokenize text).drop k) := by
    apply tokensOK_append_right (a := (tokenize text).take k)
    rw [hsplitT]; exact hokT
  have hvisSplit : visChars ((tokenize text).take k) ++ visChars ((tokenize text).drop k) =
      visStr text := by
    conv_rhs => rw [visStr, ← hsplitT]
    rw [visChars_append]
  have hcnt : min w (visStr text).length = (visChars ((tokenize text).take k)).length := by
    rw [hvis]; rfl
  have htakeVis : visChars ((tokenize text).take k) =
      (visStr text).take (min w (visStr text).length) := by
    rw [hcnt, ← hvisSplit, List.take_left]
  have hdropVis : visChars ((tokenize text).drop k) =
      (visStr text).drop (min w (visStr text).length) := by
    rw [hcnt, ← hvisSplit, List.drop_left]
  have hrenderTot : render ((tokenize text).take k) ++ render ((tokenize text).drop k) = text := by
    rw [← render_append, hsplitT, render_tokenize]
  have hs0tok : tokenize (render ((tokenize text).drop k)) = (tokenize text).drop k := by
    have := tokenize_render_append (z := []) hokDrop safeTail_nil
    simpa [tokenize_nil] using this
  rw [strsplit]
  simp only [heq]
  cases hf2 : f2.isEmpty with
  | true =>
    have hf2e : f2 = [] := by
      cases f2 with
      | nil => rfl
      | cons a b => simp at hf2
    subst hf2e
    simp only [List.isEmpty_nil, eq_self_iff_true, if_true, List.nil_append]
    refine ⟨k, [], ?_, ?_, ?_, ?_, ?_, ?_, ?_, ?_, ?_⟩
    · rfl
    · exact Or.inl rfl
    · simp
    · simp
    · exact hrenderTot
    · have htk : tokenize (render ((tokenize text).take k)) = (tokenize text).take k := by
        have := tokenize_render_append (z := []) hokTake safeTail_nil
        simpa [tokenize_nil] using this
      simp only [visStr, htk]
      exact htakeVis
    · simp only [visStr, hs0tok]
      exact hdropVis
    · exact hdropVis
    · exact hdropshape
  | false =>
    have hgood : ∀ n ∈ f2, n ≠ "reset" ∧ (n, colorCode n) ∈ COLORS := by
      intro n hn
      rcases hmem n hn with hin | ⟨hr, cd, hcd⟩
      · simp at hin
      · exact ⟨hr, colorCode_mem ⟨cd, hcd⟩⟩
    simp only [Bool.false_eq_true, if_false, List.nil_append]
    refine ⟨k, f2.reverse, ?_, ?_, ?_, ?_, ?_, ?_, ?_, ?_, ?_⟩
    · rfl
    · exact Or.inr rfl
    · rw [foldl_prepend]
    · intro n hn
      exact hgood n (List.mem_reverse.1 hn)
    · exact hrenderTot
    · have htok1 : tokenize (render ((tokenize text).take k) ++ colorCode "reset") =
          (tokenize text).take k ++ [CTok.color "reset" (colorCode "reset")] := by
        rw [tokenize_render_append hokTake safeTail_reset, tokenize_reset]
      simp only [visStr, htok1, visChars_append]
      simpa [visChars] using htakeVis
    · rw [foldl_prepend]
      have htok2 : tokenize ((f2.reverse.map colorCode).flatten ++
          render ((tokenize text).drop k)) =
          f2.reverse.map (fun n => CTok.color n (colorCode n)) ++ (tokenize text).drop k := by
        rw [tokenize_flat_codes _ _ (fun n hn => (hgood n (List.mem_reverse.1 hn)).2), hs0tok]
      simp only [visStr, htok2, visChars_map_color]
      exact hdropVis
    · exact hdropVis
    · exact hdropshape

/-! ## Parser lemmas -/

lemma pyTruthyOpt_eq_isSome {o : Option Line} (h : o ≠ some []) :
    pyTruthyOpt o = o.isSome := by
  cases o with
  | none => rfl
  | some s =>
    cases s with
    | nil => exact absurd rfl h
    | cons a b => simp [pyTruthyOpt]

lemma isPrefixOf_cons_cons (a : Char) (p : Line) (b : Char) (l : Line) :
    (a :: p).isPrefixOf (b :: l) = (a == b && p.isPrefixOf l) := rfl

lemma rstrip_append (l : Line) : l = pyRstrip l ++ (l.reverse.takeWhile isPyWs).reverse := by
  rw [pyRstrip, ← List.reverse_append, List.takeWhile_append_dropWhile, List.reverse_reverse]

/-- Every line-class predicate that keys on a leading marker is false on a
line whose first char is none of the marker chars. -/
lemma predicates_of_head {l : Line} {c : Char} (hl : l.head? = some c)
    (h1 : c ≠ '-') (h2 : c ≠ '+') (h3 : c ≠ ' ') (h4 : c ≠ '\\') (h5 : c ≠ '@')
    (h6 : c ≠ '#') :
    is_old_path l = false ∧ is_new_path l = false ∧ is_hunk_meta l = false ∧
    is_old l = false ∧ is_new l = false ∧ is_common l = false ∧ is_eof l = false := by
  cases l with
  | nil => simp at hl
  | cons b t =>
    have hb : b = c := by simpa using hl
    subst hb
    have hop : is_old_path (b :: t) = false := by
      rw [is_old_path, pyStartswith, show "--- ".toList = '-' :: "-- ".toList from rfl,
        isPrefixOf_cons_cons]
      simp [Ne.symm h1]
    have hnp : is_new_path (b :: t) = false := by
      rw [is_new_path, pyStartswith, show "+++ ".toList = '+' :: "++ ".toList from rfl,
        isPrefixOf_cons_cons]
      simp [Ne.symm h2]
    refine ⟨hop, hnp, ?_, ?_, ?_, ?_, ?_⟩
    · rw [is_hunk_meta]
      have ha : pyStartswith "@@ -" (b :: t) = false := by
        rw [pyStartswith, show "@@ -".toList = '@' :: "@ -".toList from rfl,
          isPrefixOf_cons_cons]
        simp [Ne.symm h5]
      have hh : pyStartswith "## -" (b :: t) = false := by
        rw [pyStartswith, show "## -".toList = '#' :: "# -".toList from rfl,
          isPrefixOf_cons_cons]
        simp [Ne.symm h6]
      rw [ha, hh]
      simp
    · rw [is_old]
      have : pyStartswith "-" (b :: t) = false := by
        rw [pyStartswith, show "-".toList = ['-'] from rfl, isPrefixOf_cons_cons]
        simp [Ne.symm h1]
      rw [this]
      simp
    · rw [is_new]
      have : pyStartswith "+" (b :: t) = false := by
        rw [pyStartswith, show "+".toList = ['+'] from rfl, isPrefixOf_cons_cons]
        simp [Ne.symm h2]
      rw [this]
      simp
    · rw [is_common, pyStartswith, show " ".toList = [' '] from rfl, isPrefixOf_cons_cons]
      simp [Ne.symm h3]
    · rw [is_eof, pyStartswith, show "\\ No newline at end of".toList =
        '\\' :: " No newline at end of".toList from rfl, isPrefixOf_cons_cons]
      simp [Ne.symm h4]

/-! ## Claim theorems -/

/-- C3: for every string and width, `strsplit` cuts at a token boundary of
the greedy tokenization by the COLORS table (so no escape sequence is
divided between the two pieces); the first piece holds
`min w (total visible)` visible chars and the returned count equals that
number; the pieces are the two rendered token halves up to one reset
appended to the first and reopened color codes prefixed to the second, so
the concatenation restores the full text and in particular its visible
content exactly. -/
theorem claim_C3_strsplit_escape_safety (text : Line) (w : Nat) :
    ∃ (k : Nat) (names : List String),
      render ((tokenize text).take k) ++ render ((tokenize text).drop k) = text ∧
      ((strsplit text w).1 = render ((tokenize text).take k) ∨
       (strsplit text w).1 = render ((tokenize text).take k) ++ colorCode "reset") ∧
      (strsplit text w).2.1 =
        (names.map colorCode).flatten ++ render ((tokenize text).drop k) ∧
      (∀ n ∈ names, n ≠ "reset" ∧ (n, colorCode n) ∈ COLORS) ∧
      (strsplit text w).2.2 = min w (visStr text).length ∧
      (visStr (strsplit text w).1).length = (strsplit text w).2.2 ∧
      visStr (strsplit text w).1 ++ visStr (strsplit text w).2.1 = visStr text := by
  obtain ⟨k, names, hcnt, hfirst, hsecond, hnames, htot, hvf, hvs, _, _⟩ :=
    strsplit_full text w
  refine ⟨k, names, htot, hfirst, hsecond, hnames, hcnt, ?_, ?_⟩
  · rw [hvf, hcnt, List.length_take]
    omega
  · rw [hvf, hvs]
    exact List.take_append_drop _ _

/-- C7 counterexample: with an escape sequence left open in the input and
`pad` false, `strtrim` does not return the text unchanged (a reset is
appended), refuting the claim as stated. -/
theorem claim_C7_counterexample :
    strtrim ("\x1b[31ma".toList) 5 ['>'] false ≠ "\x1b[31ma".toList := by decide

/-- C7 (amended): for `w > 1`, if the visible length of `text` exceeds `w`
then the result is a piece whose visible content is the first `w - 1`
visible chars of `text`, followed by `wrap_char`; otherwise the result is
`text` — with a reset appended when a color was left open — padded with
spaces to visible width exactly `w` when `pad` is true and unpadded when
`pad` is false; in both cases the visible content of the kept text is
unchanged. -/
theorem claim_C7_strtrim_amended (text : Line) (w : Nat) (wrap_char : Line) (pad : Bool)
    (hw : 1 < w) :
    (w < (visStr text).length →
      ∃ p, strtrim text w wrap_char pad = p ++ wrap_char ∧
        visStr p = (visStr text).take (w - 1)) ∧
    ((visStr text).length ≤ w →
      ∃ t1, (t1 = text ∨ t1 = text ++ colorCode "reset") ∧ visStr t1 = visStr text ∧
        strtrim text w wrap_char pad =
          t1 ++ (if pad then List.replicate (w - (visStr text).length) ' ' else [])) := by
  obtain ⟨k, names, hcnt, hfirst, _, _, _, hvf, _, hdv, hdropshape⟩ :=
    strsplit_full text (w + 1)
  constructor
  · intro hlong
    have hmin : min (w + 1) (visStr text).length = w + 1 := by omega
    have htlen : (strsplit text (w + 1)).2.2 = w + 1 := by rw [hcnt, hmin]
    have hvf1 : visStr (strsplit text (w + 1)).1 = (visStr text).take (w + 1) := by
      rw [hvf, hmin]
    have hlen1 : (visStr (strsplit text (w + 1)).1).length = w + 1 := by
      rw [hvf1, List.length_take]
      omega
    obtain ⟨k2, names2, hcnt2, _, _, _, _, hvf2, _, _, _⟩ :=
      strsplit_full (strsplit text (w + 1)).1 (w - 1)
    have hmin2 : min (w - 1) (visStr (strsplit text (w + 1)).1).length = w - 1 := by
      rw [hlen1]; omega
    refine ⟨(strsplit (strsplit text (w + 1)).1 (w - 1)).1, ?_, ?_⟩
    · rw [strtrim]
      simp only [htlen, if_pos (by omega : w < w + 1)]
    · rw [hvf2, hmin2, hvf1, List.take_take]
      congr 1
      omega
  · intro hshort
    have hmin : min (w + 1) (visStr text).length = (visStr text).length := by omega
    have htlen : (strsplit text (w + 1)).2.2 = (visStr text).length := by rw [hcnt, hmin]
    have hdropnil : (tokenize text).drop k = [] := by
      rcases hdropshape with h | ⟨c, r2, hvc⟩
      · exact h
      · exfalso
        have : visChars ((tokenize text).drop k) = [] := by
          rw [hdv, hmin]
          simp
        rw [hvc] at this
        simp [visChars] at this
    have htakeall : (tokenize text).take k = tokenize text := by
      have := List.take_append_drop k (tokenize text)
      rw [hdropnil, List.append_nil] at this
      exact this
    have hrender : render ((tokenize text).take k) = text := by
      rw [htakeall, render_tokenize]
    have ht1 : (strsplit text (w + 1)).1 = text ∨
        (strsplit text (w + 1)).1 = text ++ colorCode "reset" := by
      rcases hfirst with h | h
      · exact Or.inl (by rw [h, hrender])
      · exact Or.inr (by rw [h, hrender])
    have hvt1 : visStr (strsplit text (w + 1)).1 = visStr text := by
      rw [hvf, hmin]
      simp
    refine ⟨(strsplit text (w + 1)).1, ht1, hvt1, ?_⟩
    rw [strtrim]
    simp only [htlen, if_neg (by omega : ¬w < (visStr text).length)]
    cases pad with
    | true => simp
    | false => simp

/-- C7 witness for the amended statement at `text = "abc"`, `w = 2`. -/
theorem claim_C7_witness :
    1 < 2 ∧
    ((2 < (visStr ("abc".toList)).length →
      ∃ p, strtrim ("abc".toList) 2 ['>'] false = p ++ ['>'] ∧
        visStr p = (visStr ("abc".toList)).take (2 - 1)) ∧
     ((visStr ("abc".toList)).length ≤ 2 →
      ∃ t1, (t1 = "abc".toList ∨ t1 = "abc".toList ++ colorCode "reset") ∧
        visStr t1 = visStr ("abc".toList) ∧
        strtrim ("abc".toList) 2 ['>'] false =
          t1 ++ (if false then List.replicate (2 - (visStr ("abc".toList)).length) ' '
                 else []))) :=
  ⟨by decide, claim_C7_strtrim_amended ("abc".toList) 2 ['>'] false (by decide)⟩

/-- C1: an old-path line (`--- `) starts a new diff when no hunk is open or
the last hunk is complete — yielding the previous diff exactly when its
old path, new path and at least one hunk are all set, and attaching the
pending headers to the new diff — and otherwise is appended to the open
incomplete hunk as a literal minus-tagged hunk line. -/
theorem claim_C1_old_path_line (diff : UnifiedDiff) (headers : List Line) (line : Line)
    (hline : is_old_path line = true)
    (hop : diff.old_path ≠ some []) (hnp : diff.new_path ≠ some []) :
    (lastHunkDone diff = true →
      parseStep diff headers line =
        .ok ((if diff.old_path.isSome && diff.new_path.isSome && !diff.hunks.isEmpty
              then [diff] else []),
             ⟨headers, some line, none, []⟩, [])) ∧
    (lastHunkDone diff = false →
      parseStep diff headers line =
        .ok ([], withLastAppended diff ('-', line.tail), headers)) := by
  have hform : formedB diff =
      (diff.old_path.isSome && diff.new_path.isSome && !diff.hunks.isEmpty) := by
    rw [formedB, pyTruthyOpt_eq_isSome hop, pyTruthyOpt_eq_isSome hnp]
  have hph : parse_hunk_line line = ('-', line.tail) := by
    rw [is_old_path, pyStartswith] at hline
    obtain ⟨t, ht⟩ := (isPrefixOf_iff_exists _ _).1 hline
    rw [show "--- ".toList = '-' :: "-- ".toList from rfl] at ht
    rw [ht]
    rfl
  constructor
  · intro hdone
    rw [parseStep]
    simp only [hline, if_true, hdone, hform]
  · intro hdone
    rw [parseStep]
    simp only [hline, if_true, hdone, Bool.false_eq_true, if_false, hph]

/-- C1 witness: applying the theorem to a concrete state with one open
incomplete hunk. -/
theorem claim_C1_witness :
    is_old_path ("--- a/x\n".toList) = true ∧
    ((lastHunkDone ⟨[], some ("--- a\n".toList), some ("+++ b\n".toList),
        [⟨[], "@@ -1,2 +1,2 @@\n".toList, (1, 2), (1, 2), [(' ', "k\n".toList)]⟩]⟩ = true →
      parseStep ⟨[], some ("--- a\n".toList), some ("+++ b\n".toList),
          [⟨[], "@@ -1,2 +1,2 @@\n".toList, (1, 2), (1, 2), [(' ', "k\n".toList)]⟩]⟩
          [] ("--- a/x\n".toList) =
        .ok ((if (some ("--- a\n".toList) : Option Line).isSome &&
                 (some ("+++ b\n".toList) : Option Line).isSome &&
                 !([⟨[], "@@ -1,2 +1,2 @@\n".toList, (1, 2), (1, 2),
                    [(' ', "k\n".toList)]⟩] : List Hunk).isEmpty
              then [⟨[], some ("--- a\n".toList), some ("+++ b\n".toList),
                [⟨[], "@@ -1,2 +1,2 @@\n".toList, (1, 2), (1, 2), [(' ', "k\n".toList)]⟩]⟩]
              else []),
             ⟨[], some ("--- a/x\n".toList), none, []⟩, [])) ∧
     (lastHunkDone ⟨[], some ("--- a\n".toList), some ("+++ b\n".toList),
        [⟨[], "@@ -1,2 +1,2 @@\n".toList, (1, 2), (1, 2), [(' ', "k\n".toList)]⟩]⟩ = false →
      parseStep ⟨[], some ("--- a\n".toList), some ("+++ b\n".toList),
          [⟨[], "@@ -1,2 +1,2 @@\n".toList, (1, 2), (1, 2), [(' ', "k\n".toList)]⟩]⟩
          [] ("--- a/x\n".toList) =
        .ok ([], withLastAppended ⟨[], some ("--- a\n".toList), some ("+++ b\n".toList),
            [⟨[], "@@ -1,2 +1,2 @@\n".toList, (1, 2), (1, 2), [(' ', "k\n".toList)]⟩]⟩
          ('-', ("--- a/x\n".toList).tail), []))) :=
  ⟨by decide, claim_C1_old_path_line _ [] _ (by decide) (by decide) (by decide)⟩

lemma filter_not_plus_split (l : List (Char × Line))
    (htags : ∀ p ∈ l, p.1 = '-' ∨ p.1 = '+' ∨ p.1 = ' ') :
    (l.filter (fun p => p.1 != '+')).length =
      (l.filter (fun p => p.1 == '-')).length + (l.filter (fun p => p.1 == ' ')).length := by
  induction l with
  | nil => simp
  | cons q l ih =>
    have hq := htags q (List.mem_cons_self _ _)
    have ihl := ih (fun p hp => htags p (List.mem_cons_of_mem _ hp))
    rcases hq with hq | hq | hq <;>
      simp only [List.filter_cons, hq] <;> simp [ihl] <;> omega

lemma filter_not_minus_split (l : List (Char × Line))
    (htags : ∀ p ∈ l, p.1 = '-' ∨ p.1 = '+' ∨ p.1 = ' ') :
    (l.filter (fun p => p.1 != '-')).length =
      (l.filter (fun p => p.1 == '+')).length + (l.filter (fun p => p.1 == ' ')).length := by
  induction l with
  | nil => simp
  | cons q l ih =>
    have hq := htags q (List.mem_cons_self _ _)
    have ihl := ih (fun p hp => htags p (List.mem_cons_of_mem _ hp))
    rcases hq with hq | hq | hq <;>
      simp only [List.filter_cons, hq] <;> simp [ihl] <;> omega

/-- C2: a hunk is complete exactly when the count field of `old_addr`
equals the number of old-tagged plus common-tagged lines and the count
field of `new_addr` equals the number of new-tagged plus common-tagged
lines. -/
theorem claim_C2_is_completed (h : Hunk)
    (htags : ∀ p ∈ h.hunk_list, p.1 = '-' ∨ p.1 = '+' ∨ p.1 = ' ') :
    (h.is_completed = true ↔
      (h.old_addr.2 = (countTag h '-' : Int) + countTag h ' ' ∧
       h.new_addr.2 = (countTag h '+' : Int) + countTag h ' ')) := by
  have hold : h.get_old_text.length = countTag h '-' + countTag h ' ' := by
    rw [Hunk.get_old_text, List.length_map, countTag, countTag]
    exact filter_not_plus_split h.hunk_list htags
  have hnew : h.get_new_text.length = countTag h '+' + countTag h ' ' := by
    rw [Hunk.get_new_text, List.length_map, countTag, countTag]
    exact filter_not_minus_split h.hunk_list htags
  rw [Hunk.is_completed, Bool.and_eq_true, beq_iff_eq, beq_iff_eq, hold, hnew]
  push_cast
  exact Iff.rfl

/-- C2 witness. -/
theorem claim_C2_witness :
    (∀ p ∈ ([('-', "x\n".toList), ('+', "y\n".toList), (' ', "z\n".toList)] :
        List (Char × Line)), p.1 = '-' ∨ p.1 = '+' ∨ p.1 = ' ') ∧
    ((⟨[], "@@ -1,2 +1,2 @@\n".toList, (1, 2), (1, 2),
        [('-', "x\n".toList), ('+', "y\n".toList), (' ', "z\n".toList)]⟩ :
        Hunk).is_completed = true ↔
      ((2 : Int) = (countTag ⟨[], "@@ -1,2 +1,2 @@\n".toList, (1, 2), (1, 2),
          [('-', "x\n".toList), ('+', "y\n".toList), (' ', "z\n".toList)]⟩ '-' : Int) +
          countTag ⟨[], "@@ -1,2 +1,2 @@\n".toList, (1, 2), (1, 2),
          [('-', "x\n".toList), ('+', "y\n".toList), (' ', "z\n".toList)]⟩ ' ' ∧
       (2 : Int) = (countTag ⟨[], "@@ -1,2 +1,2 @@\n".toList, (1, 2), (1, 2),
          [('-', "x\n".toList), ('+', "y\n".toList), (' ', "z\n".toList)]⟩ '+' : Int) +
          countTag ⟨[], "@@ -1,2 +1,2 @@\n".toList, (1, 2), (1, 2),
          [('-', "x\n".toList), ('+', "y\n".toList), (' ', "z\n".toList)]⟩ ' ')) :=
  ⟨by decide, claim_C2_is_completed _ (by decide)⟩

/-- C4: the separator line of the sample of scenario 5 (seventy dashes, as
shown in the spec) is classified by `is_old` as an old-tagged content line
and appended to the open hunk when no headers are pending — not treated as
an old-path marker — while `is_old` excludes `--- `-path lines and lines
of exactly 72 dashes. -/
theorem claim_C4_dash_separator (diff : UnifiedDiff) (headers : List Line) (line : Line)
    (hline : line = List.replicate 70 '-' ++ ['\n'])
    (hopen : diff.hunks ≠ []) (hnohdr : headers = []) :
    is_old line = true ∧ is_old_path line = false ∧
    parseStep diff headers line =
      .ok ([], withLastAppended diff ('-', List.replicate 69 '-' ++ ['\n']), []) ∧
    (∀ l, is_old_path l = true → is_old l = false) ∧
    (∀ l, pyRstrip l = List.replicate 72 '-' → is_old l = false) := by
  subst hline hnohdr
  have hh : diff.hunks.isEmpty = false := by
    cases hk : diff.hunks with
    | nil => exact absurd hk hopen
    | cons a b => rfl
  refine ⟨by decide, by decide, ?_, ?_, ?_⟩
  · rw [parseStep]
    simp only [show is_old_path (List.replicate 70 '-' ++ ['\n']) = false from by decide,
      show is_new_path (List.replicate 70 '-' ++ ['\n']) = false from by decide,
      show is_hunk_meta (List.replicate 70 '-' ++ ['\n']) = false from by decide,
      show is_old (List.replicate 70 '-' ++ ['\n']) = true from by decide,
      show parse_hunk_line (List.replicate 70 '-' ++ ['\n']) =
        ('-', List.replicate 69 '-' ++ ['\n']) from by decide,
      hh, Bool.false_eq_true, if_false, Bool.false_and, Bool.not_false, Bool.true_and,
      Bool.true_or, Bool.and_true, List.isEmpty_nil, if_true]
  · intro l hl
    rw [is_old, hl]
    simp
  · intro l hl
    rw [is_old, hl]
    simp

/-- C4 witness. -/
theorem claim_C4_witness :
    (List.replicate 70 '-' ++ ['\n'] : Line) = List.replicate 70 '-' ++ ['\n'] ∧
    ([⟨[], "@@ -1,5 +1,5 @@\n".toList, (1, 5), (1, 5), []⟩] : List Hunk) ≠ [] ∧
    (is_old (List.replicate 70 '-' ++ ['\n']) = true ∧
     is_old_path (List.replicate 70 '-' ++ ['\n']) = false ∧
     parseStep ⟨[], some ("--- a\n".toList), some ("+++ b\n".toList),
         [⟨[], "@@ -1,5 +1,5 @@\n".toList, (1, 5), (1, 5), []⟩]⟩ []
         (List.replicate 70 '-' ++ ['\n']) =
       .ok ([], withLastAppended ⟨[], some ("--- a\n".toList), some ("+++ b\n".toList),
           [⟨[], "@@ -1,5 +1,5 @@\n".toList, (1, 5), (1, 5), []⟩]⟩
         ('-', List.replicate 69 '-' ++ ['\n']), []) ∧
     (∀ l, is_old_path l = true → is_old l = false) ∧
     (∀ l, pyRstrip l = List.replicate 72 '-' → is_old l = false)) :=
  ⟨rfl, by decide,
    claim_C4_dash_separator ⟨[], some ("--- a\n".toList), some ("+++ b\n".toList),
      [⟨[], "@@ -1,5 +1,5 @@\n".toList, (1, 5), (1, 5), []⟩]⟩ [] _ rfl (by decide) rfl⟩

/-- C10 (implicit): when a not-fully-formed diff (no new path or no hunks)
is current and an old-path line arrives with no open incomplete hunk, or an
`Only in`/`Binary files ... differ` marker arrives, the current diff is
discarded: nothing containing it is emitted and the successor state is
built only from the pending headers and the new line, so its accumulated
path lines can reach no later yield. -/
theorem claim_C10_discard_unformed (diff : UnifiedDiff) (headers : List Line) (line : Line)
    (hnf : diff.new_path = none ∨ diff.hunks = []) :
    (is_old_path line = true → lastHunkDone diff = true →
      parseStep diff headers line = .ok ([], ⟨headers, some line, none, []⟩, [])) ∧
    ((is_only_in_dir line = true ∨ is_binary_differ line = true) →
      parseStep diff headers line =
        .ok ([⟨headers ++ [line], some [], some [], []⟩], ⟨[], none, none, []⟩, [])) := by
  have hform : formedB diff = false := by
    rw [formedB]
    rcases hnf with h | h
    · rw [h]
      simp [pyTruthyOpt]
    · rw [h]
      simp
  constructor
  · intro hline hdone
    rw [parseStep]
    simp only [hline, if_true, hdone, hform, Bool.false_eq_true, if_false]
  · intro hmark
    have hhead : ∃ c t, line = c :: t ∧ c ≠ '-' ∧ c ≠ '+' ∧ c ≠ ' ' ∧ c ≠ '\\' ∧
        c ≠ '@' ∧ c ≠ '#' := by
      rcases hmark with h | h
      · rw [is_only_in_dir, pyStartswith] at h
        obtain ⟨t, ht⟩ := (isPrefixOf_iff_exists _ _).1 h
        rw [show "Only in ".toList = 'O' :: "nly in ".toList from rfl] at ht
        exact ⟨'O', _, by rw [ht]; rfl, by decide, by decide, by decide, by decide,
          by decide, by decide⟩
      · rw [is_binary_differ] at h
        simp only [Bool.and_eq_true] at h
        obtain ⟨⟨hpre, _⟩, _⟩ := h
        rw [pyStartswith] at hpre
        obtain ⟨t, ht⟩ := (isPrefixOf_iff_exists _ _).1 hpre
        rw [show "Binary files ".toList = 'B' :: "inary files ".toList from rfl] at ht
        have hfull := rstrip_append line
        rw [ht] at hfull
        exact ⟨'B', _, hfull, by decide, by decide, by decide, by decide,
          by decide, by decide⟩
    obtain ⟨c, t, hlt, hc1, hc2, hc3, hc4, hc5, hc6⟩ := hhead
    have hpred := predicates_of_head (l := line) (c := c) (by rw [hlt]; rfl)
      hc1 hc2 hc3 hc4 hc5 hc6
    obtain ⟨hop, hnp, hhm, ho, hn, hcm, hef⟩ := hpred
    have hmarkb : (is_only_in_dir line || is_binary_differ line) = true := by
      rcases hmark with h | h
      · rw [h]; simp
      · rw [h]; simp
    rw [parseStep]
    simp only [hop, hnp, hhm, ho, hn, hcm, hef, hmarkb, hform, Bool.false_eq_true,
      if_false, Bool.false_and, Bool.and_false, Bool.or_false, Bool.false_or, if_true,
      List.nil_append]

/-- C10 witness: an old-path line after a path-only diff, and an `Only in`
marker after a path-only diff. -/
theorem claim_C10_witness :
    ((some ("+++ b\n".toList) : Option Line) = none ∨ ([] : List Hunk) = []) ∧
    ((is_old_path ("--- c\n".toList) = true →
      lastHunkDone ⟨[], some ("--- a\n".toList), some ("+++ b\n".toList), []⟩ = true →
      parseStep ⟨[], some ("--- a\n".toList), some ("+++ b\n".toList), []⟩
          ["junk\n".toList] ("--- c\n".toList) =
        .ok ([], ⟨["junk\n".toList], some ("--- c\n".toList), none, []⟩, [])) ∧
     ((is_only_in_dir ("--- c\n".toList) = true ∨
       is_binary_differ ("--- c\n".toList) = true) →
      parseStep ⟨[], some ("--- a\n".toList), some ("+++ b\n".toList), []⟩
          ["junk\n".toList] ("--- c\n".toList) =
        .ok ([⟨["junk\n".toList, "--- c\n".toList], some [], some [], []⟩],
             ⟨[], none, none, []⟩, []))) :=
  ⟨Or.inr rfl,
    claim_C10_discard_unformed ⟨[], some ("--- a\n".toList), some ("+++ b\n".toList), []⟩
      ["junk\n".toList] ("--- c\n".toList) (Or.inr rfl)⟩

/-- C6: at end of input, when the final in-progress diff has its old path
set, the parse raises an internal-consistency error whenever the new path
is unset or the last hunk has empty meta text or an empty line list, and
otherwise the diff is yielded (after the previously emitted ones, with any
dangling headers as a final header-only diff). -/
theorem claim_C6_end_of_input (lines : List Line) (emitted : List UnifiedDiff)
    (d : UnifiedDiff) (hdrs : List Line)
    (hfold : parseFold ⟨[], none, none, []⟩ [] lines = .ok (emitted, d, hdrs))
    (hset : pyTruthyOpt d.old_path = true) :
    ((d.new_path = none ∨ (∃ hk, d.hunks.getLast? = some hk ∧
        (hk.hunk_meta = [] ∨ hk.hunk_list = []))) →
      getDiffs lines = .error .assertionError) ∧
    ((d.new_path ≠ none ∧ ∀ hk, d.hunks.getLast? = some hk →
        (hk.hunk_meta ≠ [] ∧ hk.hunk_list ≠ [])) →
      getDiffs lines = .ok (emitted ++ [d] ++ trailingHeaders hdrs)) := by
  constructor
  · intro hbad
    rw [getDiffs]
    simp only [hfold]
    by_cases hnp : d.new_path = none
    · rw [finalizeParse]
      simp only [hset, if_true, hnp, Option.isNone_none, if_true]
    · have hnn : d.new_path.isNone = false := by
        cases hv : d.new_path with
        | none => exact absurd hv hnp
        | some s => rfl
      rcases hbad with hbad | ⟨hk, hlast, hbad⟩
      · exact absurd hbad hnp
      · rw [finalizeParse]
        simp only [hset, if_true, hnn, Bool.false_eq_true, if_false, hlast]
        rcases hbad with hbad | hbad
        · simp [hbad]
        · rcases hm : hk.hunk_meta with _ | ⟨a, t⟩
          · simp
          · simp [hm, hbad]
  · rintro ⟨hnp, hlast⟩
    have hnn : d.new_path.isNone = false := by
      cases hv : d.new_path with
      | none => exact absurd hv hnp
      | some s => rfl
    rw [getDiffs]
    simp only [hfold]
    rw [finalizeParse]
    simp only [hset, if_true, hnn, Bool.false_eq_true, if_false]
    cases hl : d.hunks.getLast? with
    | none => simp [List.append_assoc]
    | some hk =>
      obtain ⟨hm, hli⟩ := hlast hk hl
      have hme : hk.hunk_meta.isEmpty = false := by
        cases hv : hk.hunk_meta with
        | nil => exact absurd hv hm
        | cons a t => rfl
      have hle : hk.hunk_list.isEmpty = false := by
        cases hv : hk.hunk_list with
        | nil => exact absurd hv hli
        | cons a t => rfl
      simp only [hme, hle, Bool.false_eq_true, if_false]
      simp [List.append_assoc]

/-- C6 witness: a two-line input whose final diff has both paths set and no
hunks is yielded without error. -/
theorem claim_C6_witness :
    parseFold ⟨[], none, none, []⟩ [] ["--- a\n".toList, "+++ b\n".toList] =
      .ok ([], ⟨[], some ("--- a\n".toList), some ("+++ b\n".toList), []⟩, []) ∧
    pyTruthyOpt (some ("--- a\n".toList)) = true ∧
    (((some ("+++ b\n".toList) : Option Line) ≠ none ∧
      ∀ hk, ([] : List Hunk).getLast? = some hk →
        (hk.hunk_meta ≠ [] ∧ hk.hunk_list ≠ [])) →
      getDiffs ["--- a\n".toList, "+++ b\n".toList] =
        .ok ([] ++ [⟨[], some ("--- a\n".toList), some ("+++ b\n".toList), []⟩] ++
          trailingHeaders [])) :=
  ⟨by decide, by decide,
    (claim_C6_end_of_input ["--- a\n".toList, "+++ b\n".toList] []
      ⟨[], some ("--- a\n".toList), some ("+++ b\n".toList), []⟩ [] (by decide)
      (by decide)).2⟩

/-- C9: `decode` is total — text is returned unchanged, bytes decode as
UTF-8 when valid and as Latin-1 otherwise, and the codec loop falls back to
the literal sentinel line when every decoding attempt fails (Latin-1 never
fails, so the sentinel clause is the empty-codec-list case of the loop). -/
theorem claim_C9_decode_total :
    (∀ s : Line, decode (.inl s) = s) ∧
    (∀ bs cs, utf8Decode bs = some cs → decode (.inr bs) = cs) ∧
    (∀ bs, utf8Decode bs = none → decode (.inr bs) = latin1Chars bs) ∧
    (∀ bs, decodeBytes [] bs = undecodableSentinel) := by
  refine ⟨fun s => rfl, ?_, ?_, fun bs => rfl⟩
  · intro bs cs h
    rw [decode]
    simp [decodeBytes, tryEncoding, h]
  · intro bs h
    rw [decode]
    simp [decodeBytes, tryEncoding, h]

/-- C9 witness: a valid UTF-8 pair and an invalid byte. -/
theorem claim_C9_witness :
    utf8Decode [(0xC3 : Byte), (0xA9 : Byte)] = some ['é'] ∧
    decode (.inr [(0xC3 : Byte), (0xA9 : Byte)]) = ['é'] ∧
    utf8Decode [(0xFF : Byte)] = none ∧
    decode (.inr [(0xFF : Byte)]) = latin1Chars [(0xFF : Byte)] :=
  ⟨by decide, claim_C9_decode_total.2.1 _ _ (by decide), by decide,
    claim_C9_decode_total.2.2.1 _ (by decide)⟩

/-! ## Digit-width lemmas (for C8) -/

lemma digitsLenAux_congr : ∀ (f1 f2 n : Nat), n ≤ f1 → n ≤ f2 →
    digitsLenAux f1 n = digitsLenAux f2 n := by
  intro f1
  induction f1 with
  | zero =>
    intro f2 n h1 _
    have hn : n = 0 := by omega
    subst hn
    cases f2 with
    | zero => rfl
    | succ f2 => simp [digitsLenAux]
  | succ f1 ih =>
    intro f2 n h1 h2
    by_cases hn : n < 10
    · cases f2 with
      | zero =>
        have : n = 0 := by omega
        subst this
        simp [digitsLenAux]
      | succ f2 => simp [digitsLenAux, hn]
    · have h10 : 10 ≤ n := by omega
      cases f2 with
      | zero => omega
      | succ f2 =>
        have hdiv : n / 10 < n := Nat.div_lt_self (by omega) (by omega)
        rw [digitsLenAux, digitsLenAux, if_neg hn, if_neg hn,
          ih f2 (n / 10) (by omega) (by omega)]

lemma digitsLen_unfold (n : Nat) : digitsLen n = if n < 10 then 1 else 1 + digitsLen (n / 10) := by
  by_cases hn : n < 10
  · rw [digitsLen, if_pos hn]
    cases n with
    | zero => rfl
    | succ m => simp [digitsLenAux, hn]
  · have h10 : 10 ≤ n := by omega
    obtain ⟨m, hm⟩ : ∃ m, n = m + 1 := ⟨n - 1, by omega⟩
    have hdiv : n / 10 < n := Nat.div_lt_self (by omega) (by omega)
    rw [if_neg hn, digitsLen, digitsLen, hm]
    rw [digitsLenAux, if_neg (by omega : ¬m + 1 < 10)]
    rw [digitsLenAux_congr m ((m + 1) / 10) ((m + 1) / 10) (by omega) (le_refl _)]

lemma digitsLen_pos (n : Nat) : 1 ≤ digitsLen n := by
  rw [digitsLen_unfold]
  split <;> omega

lemma digitsLen_mono : ∀ n m : Nat, m ≤ n → digitsLen m ≤ digitsLen n := by
  intro n
  induction n using Nat.strong_induction_on with
  | _ n ih =>
    intro m hmn
    rw [digitsLen_unfold m, digitsLen_unfold n]
    by_cases hm : m < 10
    · rw [if_pos hm]
      split
      · exact le_refl _
      · have := digitsLen_pos (n / 10)
        omega
    · have hn : ¬n < 10 := by omega
      rw [if_neg hm, if_neg hn]
      have hdiv : n / 10 < n := Nat.div_lt_self (by omega) (by omega)
      have := ih (n / 10) hdiv (m / 10) (Nat.div_le_div_right hmn)
      omega

lemma pyStrLenInt_mono {m n : Int} (h0 : 0 ≤ m) (h : m ≤ n) :
    pyStrLenInt m ≤ pyStrLenInt n := by
  rw [pyStrLenInt, pyStrLenInt, if_neg (by omega : ¬m < 0), if_neg (by omega : ¬n < 0)]
  exact digitsLen_mono _ _ (by omega)

lemma init_le_foldl_max (l : List Nat) (a : Nat) : a ≤ l.foldl max a := by
  induction l generalizing a with
  | nil => simp
  | cons b t ih => exact le_trans (le_max_left a b) (ih (max a b))

lemma le_foldl_max (l : List Nat) (a x : Nat) (hx : x ∈ l) : x ≤ l.foldl max a := by
  induction l generalizing a with
  | nil => simp at hx
  | cons b t ih =>
    rcases List.mem_cons.1 hx with h | h
    · subst h
      exact le_trans (le_max_right a x) (init_le_foldl_max t (max a x))
    · exact ih _ h

lemma foldl_max_shift (l : List Nat) (a : Nat) : l.foldl max a = max a (l.foldl max 0) := by
  induction l generalizing a with
  | nil => simp
  | cons b t ih =>
    simp only [List.foldl_cons]
    rw [ih (max a b), ih (max 0 b)]
    omega

lemma hunkAddrWidth_mono {h1 h2 : Hunk}
    (hnn : 0 ≤ h1.old_addr.1 + h1.old_addr.2 - 1 ∧ 0 ≤ h1.new_addr.1 + h1.new_addr.2 - 1)
    (hle : h1.old_addr.1 + h1.old_addr.2 ≤ h2.old_addr.1 + h2.old_addr.2 ∧
           h1.new_addr.1 + h1.new_addr.2 ≤ h2.new_addr.1 + h2.new_addr.2) :
    hunkAddrWidth h1 ≤ hunkAddrWidth h2 := by
  rw [hunkAddrWidth, hunkAddrWidth]
  exact max_le_max (pyStrLenInt_mono hnn.1 (by omega)) (pyStrLenInt_mono hnn.2 (by omega))

lemma spec_eq_last : ∀ (hs : List Hunk) (hne : hs ≠ []),
    (∀ h ∈ hs, 0 ≤ h.old_addr.1 + h.old_addr.2 - 1 ∧
        0 ≤ h.new_addr.1 + h.new_addr.2 - 1) →
    hs.Chain' (fun h1 h2 =>
      h1.old_addr.1 + h1.old_addr.2 ≤ h2.old_addr.1 + h2.old_addr.2 ∧
      h1.new_addr.1 + h1.new_addr.2 ≤ h2.new_addr.1 + h2.new_addr.2) →
    (hs.map hunkAddrWidth).foldl max 0 = hunkAddrWidth (hs.getLast hne)
  | [], hne, _, _ => absurd rfl hne
  | [h], _, _, _ => by simp
  | h1 :: h2 :: t, _, hnn, hmono => by
    have hpair := (List.chain'_cons.1 hmono).1
    have hrest := (List.chain'_cons.1 hmono).2
    have ih := spec_eq_last (h2 :: t) (by simp)
      (fun h hm => hnn h (List.mem_cons_of_mem _ hm)) hrest
    have hw2 : hunkAddrWidth h2 ≤ hunkAddrWidth ((h2 :: t).getLast (by simp)) := by
      rw [← ih]
      exact le_foldl_max _ _ _ (by simp)
    have hw1 : hunkAddrWidth h1 ≤ hunkAddrWidth ((h2 :: t).getLast (by simp)) :=
      le_trans (hunkAddrWidth_mono (hnn h1 (List.mem_cons_self _ _)) hpair) hw2
    have hlast : (h1 :: h2 :: t).getLast (by simp) = (h2 :: t).getLast (by simp) := by
      rw [List.getLast_cons]
    rw [hlast, List.map_cons, List.foldl_cons, foldl_max_shift, ih]
    omega

/-- C8 counterexample: with a later hunk at smaller addresses than an
earlier one, the code computes the gutter from the LAST hunk (width 1),
not the maximum over all hunks (width 3). -/
theorem claim_C8_counterexample :
    numWidth ⟨[], some ("--- a\n".toList), some ("+++ b\n".toList),
      [⟨[], "@@ -100,1 +100,1 @@\n".toList, (100, 1), (100, 1), []⟩,
       ⟨[], "@@ -1,1 +1,1 @@\n".toList, (1, 1), (1, 1), []⟩]⟩ = 1 ∧
    specNumWidth ⟨[], some ("--- a\n".toList), some ("+++ b\n".toList),
      [⟨[], "@@ -100,1 +100,1 @@\n".toList, (100, 1), (100, 1), []⟩,
       ⟨[], "@@ -1,1 +1,1 @@\n".toList, (1, 1), (1, 1), []⟩]⟩ = 3 := by
  constructor <;> decide

/-- C8 (amended): the gutter width is computed from the LAST hunk only —
the digit width of its last covered address on either side, and the width
of `0` for a diff with no hunks; when the hunk address ranges are
nondecreasing on both sides (as in well-formed diffs) and last covered
addresses are nonnegative, this coincides with the maximum over all
hunks. -/
theorem claim_C8_gutter_width_amended (d : UnifiedDiff)
    (hnn : ∀ h ∈ d.hunks, 0 ≤ h.old_addr.1 + h.old_addr.2 - 1 ∧
        0 ≤ h.new_addr.1 + h.new_addr.2 - 1)
    (hmono : d.hunks.Chain' (fun h1 h2 =>
      h1.old_addr.1 + h1.old_addr.2 ≤ h2.old_addr.1 + h2.old_addr.2 ∧
      h1.new_addr.1 + h1.new_addr.2 ≤ h2.new_addr.1 + h2.new_addr.2)) :
    numWidth d = specNumWidth d ∧
    (d.hunks = [] → numWidth d = pyStrLenInt 0) := by
  cases hk : d.hunks with
  | nil =>
    constructor
    · rw [numWidth, specNumWidth, hk]
      simp
    · intro _
      rw [numWidth, hk]
      simp
  | cons h1 t =>
    rw [hk] at hnn hmono
    constructor
    · have hlast : d.hunks.getLast? = some ((h1 :: t).getLast (by simp)) := by
        rw [hk]
        exact List.getLast?_eq_getLast _ (by simp)
      have hnw : numWidth d = hunkAddrWidth ((h1 :: t).getLast (by simp)) := by
        rw [numWidth, hlast]
        rfl
      have hsw : specNumWidth d = ((h1 :: t).map hunkAddrWidth).foldl max 0 := by
        rw [specNumWidth, hk]
      rw [hnw, hsw, spec_eq_last (h1 :: t) (by simp) hnn hmono]
    · intro hcon
      simp at hcon

/-! ## Split and int lemmas (for C5) -/

lemma pySplitWsAux_chunk (xs : Line) (hxs : ∀ c ∈ xs, isPyWs c = false) :
    ∀ (l acc : Line), pySplitWsAux (xs ++ l) acc = pySplitWsAux l (xs.reverse ++ acc) := by
  induction xs with
  | nil => intro l acc; simp
  | cons c xs ih =>
    intro l acc
    have hc : isPyWs c = false := hxs c (List.mem_cons_self _ _)
    rw [List.cons_append, pySplitWsAux, hc]
    simp only [Bool.false_eq_true, if_false]
    rw [ih (fun x hx => hxs x (List.mem_cons_of_mem _ hx)) l (c :: acc)]
    simp

lemma pySplitWsAux_ws (c : Char) (hc : isPyWs c = true) (l acc : Line) :
    pySplitWsAux (c :: l) acc =
      if acc.isEmpty then pySplitWsAux l [] else acc.reverse :: pySplitWsAux l [] := by
  rw [pySplitWsAux, hc]
  simp

/-- `split()` of a hunk-meta shaped line `@@ F1 F2 @@\n` with whitespace-free
nonempty fields. -/
lemma pySplitWs_meta (f1 f2 : Line)
    (h1 : ∀ c ∈ f1, isPyWs c = false) (h2 : ∀ c ∈ f2, isPyWs c = false)
    (hne1 : f1 ≠ []) (hne2 : f2 ≠ []) :
    pySplitWs ('@' :: '@' :: ' ' :: (f1 ++ (' ' :: (f2 ++ (' ' :: '@' :: '@' :: ['\n']))))) =
      [['@', '@'], f1, f2, ['@', '@']] := by
  have hrev1 : f1.reverse.isEmpty = false := by
    cases hf : f1.reverse with
    | nil => exact absurd (by simpa using hf) hne1
    | cons a t => rfl
  have hrev2 : f2.reverse.isEmpty = false := by
    cases hf : f2.reverse with
    | nil => exact absurd (by simpa using hf) hne2
    | cons a t => rfl
  have s2 : ∀ X : Line, pySplitWsAux (f1 ++ (' ' :: X)) [] = f1 :: pySplitWsAux X [] := by
    intro X
    rw [pySplitWsAux_chunk f1 h1, pySplitWsAux_ws ' ' (by decide), List.append_nil]
    simp [hrev1]
  have s3 : ∀ X : Line, pySplitWsAux (f2 ++ (' ' :: X)) [] = f2 :: pySplitWsAux X [] := by
    intro X
    rw [pySplitWsAux_chunk f2 h2, pySplitWsAux_ws ' ' (by decide), List.append_nil]
    simp [hrev2]
  have s1 : pySplitWs ('@' :: '@' :: ' ' :: (f1 ++ (' ' :: (f2 ++
      (' ' :: '@' :: '@' :: ['\n']))))) =
      ['@', '@'] :: pySplitWsAux (f1 ++ (' ' :: (f2 ++ (' ' :: '@' :: '@' :: ['\n'])))) [] := by
    rw [pySplitWs,
      show '@' :: '@' :: ' ' :: (f1 ++ (' ' :: (f2 ++ (' ' :: '@' :: '@' :: ['\n'])))) =
        (['@', '@'] : Line) ++ (' ' :: (f1 ++ (' ' :: (f2 ++ (' ' :: '@' :: '@' ::
          ['\n']))))) from rfl,
      pySplitWsAux_chunk ['@', '@'] (by decide), pySplitWsAux_ws ' ' (by decide)]
    rfl
  rw [s1, s2, s3]
  have s4 : pySplitWsAux ('@' :: '@' :: ['\n']) ([] : Line) = [['@', '@']] := by decide
  rw [s4]

lemma pySplitComma_ne_nil (l : Line) : pySplitComma l ≠ [] := by
  cases l with
  | nil => simp [pySplitComma]
  | cons c rest =>
    rw [pySplitComma]
    split
    · simp
    · split <;> simp

lemma pySplitComma_nocomma (l : Line) (h : ∀ c ∈ l, c ≠ ',') : pySplitComma l = [l] := by
  induction l with
  | nil => rfl
  | cons c rest ih =>
    rw [pySplitComma, if_neg (h c (List.mem_cons_self _ _)),
      ih (fun x hx => h x (List.mem_cons_of_mem _ hx))]

lemma pySplitComma_chunk (xs : Line) (h : ∀ c ∈ xs, c ≠ ',') :
    ∀ l : Line, pySplitComma (xs ++ ',' :: l) = xs :: pySplitComma l := by
  induction xs with
  | nil =>
    intro l
    rw [List.nil_append, pySplitComma, if_pos rfl]
  | cons c xs ih =>
    intro l
    rw [List.cons_append, pySplitComma, if_neg (h c (List.mem_cons_self _ _)),
      ih (fun x hx => h x (List.mem_cons_of_mem _ hx)) l]

lemma isPyWs_of_digit {c : Char} (h : c.isDigit = true) : isPyWs c = false := by
  have h1 : c ≠ ' ' := fun he => absurd h (by rw [he]; decide)
  have h2 : c ≠ '\t' := fun he => absurd h (by rw [he]; decide)
  have h3 : c ≠ '\n' := fun he => absurd h (by rw [he]; decide)
  have h4 : c ≠ '\r' := fun he => absurd h (by rw [he]; decide)
  have h5 : c ≠ '\x0b' := fun he => absurd h (by rw [he]; decide)
  have h6 : c ≠ '\x0c' := fun he => absurd h (by rw [he]; decide)
  simp [isPyWs, h1, h2, h3, h4, h5, h6]

lemma ne_comma_of_digit {c : Char} (h : c.isDigit = true) : c ≠ ',' :=
  fun he => absurd h (by rw [he]; decide)

lemma dropWhile_eq_self_of_not (l : Line) (h : ∀ c ∈ l, isPyWs c = false) :
    l.dropWhile isPyWs = l := by
  cases l with
  | nil => rfl
  | cons c rest => simp [List.dropWhile_cons, h c (List.mem_cons_self _ _)]

lemma pyStrip_of_not_ws (l : Line) (h : ∀ c ∈ l, isPyWs c = false) : pyStrip l = l := by
  rw [pyStrip, pyLstrip, dropWhile_eq_self_of_not l h, pyRstrip,
    dropWhile_eq_self_of_not _ (fun c hc => h c (List.mem_reverse.1 hc)),
    List.reverse_reverse]

lemma pyInt_digits (ds : Line) (hne : ds ≠ []) (hd : ∀ c ∈ ds, c.isDigit = true) :
    pyInt ds = some (digitsVal ds : Int) := by
  have hstrip : pyStrip ds = ds :=
    pyStrip_of_not_ws ds (fun c hc => isPyWs_of_digit (hd c hc))
  have hie : ds.isEmpty = false := by
    cases ds with
    | nil => exact absurd rfl hne
    | cons a t => rfl
  have hall : ds.all (fun c => c.isDigit) = true := by
    rw [List.all_eq_true]
    exact hd
  rw [pyInt, hstrip]
  split
  · exact absurd (hd '+' (List.mem_cons_self _ _)) (by decide)
  · exact absurd (hd '-' (List.mem_cons_self _ _)) (by decide)
  · rw [hie, hall]
    simp

lemma digits_no_ws {s : Line} (hd : ∀ c ∈ s, c.isDigit = true) {sign : Char}
    (hsign : isPyWs sign = false) : ∀ c ∈ sign :: s, isPyWs c = false := by
  intro c hc
  rcases List.mem_cons.1 hc with h | h
  · subst h; exact hsign
  · exact isPyWs_of_digit (hd c h)

lemma digits_no_comma {s : Line} (hd : ∀ c ∈ s, c.isDigit = true) {sign : Char}
    (hsign : sign ≠ ',') : ∀ c ∈ sign :: s, c ≠ ',' := by
  intro c hc
  rcases List.mem_cons.1 hc with h | h
  · subst h; exact hsign
  · exact ne_comma_of_digit (hd c h)

/-- One side of `parse_hunk_meta` (the comma form): splitting `-a,b` and
converting both fields. -/
lemma parse_side_comma (sa sb : Line) (sign : Char) (hsign : sign ≠ ',')
    (hda : ∀ c ∈ sa, c.isDigit = true) (hdb : ∀ c ∈ sb, c.isDigit = true) :
    pySplitComma (sign :: (sa ++ ',' :: sb)) = [sign :: sa, sb] := by
  rw [show sign :: (sa ++ ',' :: sb) = (sign :: sa) ++ (',' :: sb) from rfl,
    pySplitComma_chunk (sign :: sa) (digits_no_comma hda hsign),
    pySplitComma_nocomma sb (fun c hc => ne_comma_of_digit (hdb c hc))]

/-- `parse_hunk_meta` on the full form `@@ -a,b +c,d @@`. -/
lemma parse_hunk_meta_full (sa sb sc sd : Line)
    (hna : sa ≠ []) (hnb : sb ≠ []) (hnc : sc ≠ []) (hnd : sd ≠ [])
    (hda : ∀ c ∈ sa, c.isDigit = true) (hdb : ∀ c ∈ sb, c.isDigit = true)
    (hdc : ∀ c ∈ sc, c.isDigit = true) (hdd : ∀ c ∈ sd, c.isDigit = true) :
    parse_hunk_meta ('@' :: '@' :: ' ' :: (('-' :: (sa ++ ',' :: sb)) ++ (' ' ::
        (('+' :: (sc ++ ',' :: sd)) ++ (' ' :: '@' :: '@' :: ['\n']))))) =
      some (((digitsVal sa : Int), (digitsVal sb : Int)),
        ((digitsVal sc : Int), (digitsVal sd : Int))) := by
  have hfws1 : ∀ c ∈ '-' :: (sa ++ ',' :: sb), isPyWs c = false := by
    intro c hc
    rcases List.mem_cons.1 hc with h | h
    · subst h; decide
    · rcases List.mem_append.1 h with h | h
      · exact isPyWs_of_digit (hda c h)
      · rcases List.mem_cons.1 h with h | h
        · subst h; decide
        · exact isPyWs_of_digit (hdb c h)
  have hfws2 : ∀ c ∈ '+' :: (sc ++ ',' :: sd), isPyWs c = false := by
    intro c hc
    rcases List.mem_cons.1 hc with h | h
    · subst h; decide
    · rcases List.mem_append.1 h with h | h
      · exact isPyWs_of_digit (hdc c h)
      · rcases List.mem_cons.1 h with h | h
        · subst h; decide
        · exact isPyWs_of_digit (hdd c h)
  have hparts := pySplitWs_meta ('-' :: (sa ++ ',' :: sb)) ('+' :: (sc ++ ',' :: sd))
    hfws1 hfws2 (by simp) (by simp)
  have ha := parse_side_comma sa sb '-' (by decide) hda hdb
  have hb := parse_side_comma sc sd '+' (by decide) hdc hdd
  simp only [parse_hunk_meta, hparts]
  simp [ha, hb, pyInt_digits sa hna hda, pyInt_digits sb hnb hdb,
    pyInt_digits sc hnc hdc, pyInt_digits sd hnd hdd]

/-- `parse_hunk_meta` on the short-old form `@@ -a +c,d @@`: the old count
defaults to 1. -/
lemma parse_hunk_meta_short_old (sa sc sd : Line)
    (hna : sa ≠ []) (hnc : sc ≠ []) (hnd : sd ≠ [])
    (hda : ∀ c ∈ sa, c.isDigit = true)
    (hdc : ∀ c ∈ sc, c.isDigit = true) (hdd : ∀ c ∈ sd, c.isDigit = true) :
    parse_hunk_meta ('@' :: '@' :: ' ' :: (('-' :: sa) ++ (' ' ::
        (('+' :: (sc ++ ',' :: sd)) ++ (' ' :: '@' :: '@' :: ['\n']))))) =
      some (((digitsVal sa : Int), (1 : Int)),
        ((digitsVal sc : Int), (digitsVal sd : Int))) := by
  have hfws1 : ∀ c ∈ '-' :: sa, isPyWs c = false := digits_no_ws hda (by decide)
  have hfws2 : ∀ c ∈ '+' :: (sc ++ ',' :: sd), isPyWs c = false := by
    intro c hc
    rcases List.mem_cons.1 hc with h | h
    · subst h; decide
    · rcases List.mem_append.1 h with h | h
      · exact isPyWs_of_digit (hdc c h)
      · rcases List.mem_cons.1 h with h | h
        · subst h; decide
        · exact isPyWs_of_digit (hdd c h)
  have hparts := pySplitWs_meta ('-' :: sa) ('+' :: (sc ++ ',' :: sd))
    hfws1 hfws2 (by simp) (by simp)
  have ha : pySplitComma ('-' :: sa) = ['-' :: sa] :=
    pySplitComma_nocomma _ (digits_no_comma hda (by decide))
  have hb := parse_side_comma sc sd '+' (by decide) hdc hdd
  simp only [parse_hunk_meta, hparts]
  simp [ha, hb, pyInt_digits sa hna hda,
    pyInt_digits sc hnc hdc, pyInt_digits sd hnd hdd]

/-- `parse_hunk_meta` on the short-new form `@@ -a,b +c @@`: the new count
defaults to 1. -/
lemma parse_hunk_meta_short_new (sa sb sc : Line)
    (hna : sa ≠ []) (hnb : sb ≠ []) (hnc : sc ≠ [])
    (hda : ∀ c ∈ sa, c.isDigit = true) (hdb : ∀ c ∈ sb, c.isDigit = true)
    (hdc : ∀ c ∈ sc, c.isDigit = true) :
    parse_hunk_meta ('@' :: '@' :: ' ' :: (('-' :: (sa ++ ',' :: sb)) ++ (' ' ::
        (('+' :: sc) ++ (' ' :: '@' :: '@' :: ['\n']))))) =
      some (((digitsVal sa : Int), (digitsVal sb : Int)),
        ((digitsVal sc : Int), (1 : Int))) := by
  have hfws1 : ∀ c ∈ '-' :: (sa ++ ',' :: sb), isPyWs c = false := by
    intro c hc
    rcases List.mem_cons.1 hc with h | h
    · subst h; decide
    · rcases List.mem_append.1 h with h | h
      · exact isPyWs_of_digit (hda c h)
      · rcases List.mem_cons.1 h with h | h
        · subst h; decide
        · exact isPyWs_of_digit (hdb c h)
  have hfws2 : ∀ c ∈ '+' :: sc, isPyWs c = false := digits_no_ws hdc (by decide)
  have hparts := pySplitWs_meta ('-' :: (sa ++ ',' :: sb)) ('+' :: sc)
    hfws1 hfws2 (by simp) (by simp)
  have ha := parse_side_comma sa sb '-' (by decide) hda hdb
  have hb : pySplitComma ('+' :: sc) = ['+' :: sc] :=
    pySplitComma_nocomma _ (digits_no_comma hdc (by decide))
  simp only [parse_hunk_meta, hparts]
  simp [ha, hb, pyInt_digits sa hna hda, pyInt_digits sb hnb hdb,
    pyInt_digits sc hnc hdc]

/-- C5: `parse_hunk_meta` reads `@@ -a,b +c,d @@` as addresses
`(a, b), (c, d)`; a side without a comma gets count 1; and on any
hunk-meta-shaped line whose fields do not parse, the parser raises the
invalid-hunk-meta error carrying the offending line. -/
theorem claim_C5_hunk_meta_parsing :
    (∀ sa sb sc sd : Line, sa ≠ [] → sb ≠ [] → sc ≠ [] → sd ≠ [] →
      (∀ c ∈ sa, c.isDigit = true) → (∀ c ∈ sb, c.isDigit = true) →
      (∀ c ∈ sc, c.isDigit = true) → (∀ c ∈ sd, c.isDigit = true) →
      parse_hunk_meta ('@' :: '@' :: ' ' :: (('-' :: (sa ++ ',' :: sb)) ++ (' ' ::
          (('+' :: (sc ++ ',' :: sd)) ++ (' ' :: '@' :: '@' :: ['\n']))))) =
        some (((digitsVal sa : Int), (digitsVal sb : Int)),
          ((digitsVal sc : Int), (digitsVal sd : Int)))) ∧
    (∀ sa sc sd : Line, sa ≠ [] → sc ≠ [] → sd ≠ [] →
      (∀ c ∈ sa, c.isDigit = true) →
      (∀ c ∈ sc, c.isDigit = true) → (∀ c ∈ sd, c.isDigit = true) →
      parse_hunk_meta ('@' :: '@' :: ' ' :: (('-' :: sa) ++ (' ' ::
          (('+' :: (sc ++ ',' :: sd)) ++ (' ' :: '@' :: '@' :: ['\n']))))) =
        some (((digitsVal sa : Int), (1 : Int)),
          ((digitsVal sc : Int), (digitsVal sd : Int)))) ∧
    (∀ sa sb sc : Line, sa ≠ [] → sb ≠ [] → sc ≠ [] →
      (∀ c ∈ sa, c.isDigit = true) → (∀ c ∈ sb, c.isDigit = true) →
      (∀ c ∈ sc, c.isDigit = true) →
      parse_hunk_meta ('@' :: '@' :: ' ' :: (('-' :: (sa ++ ',' :: sb)) ++ (' ' ::
          (('+' :: sc) ++ (' ' :: '@' :: '@' :: ['\n']))))) =
        some (((digitsVal sa : Int), (digitsVal sb : Int)),
          ((digitsVal sc : Int), (1 : Int)))) ∧
    (∀ (line : Line) (diff : UnifiedDiff) (headers : List Line),
      is_hunk_meta line = true → parse_hunk_meta line = none →
      parseStep diff headers line = .error (.invalidHunkMeta line)) := by
  refine ⟨?_, ?_, ?_, ?_⟩
  · intro sa sb sc sd hna hnb hnc hnd hda hdb hdc hdd
    exact parse_hunk_meta_full sa sb sc sd hna hnb hnc hnd hda hdb hdc hdd
  · intro sa sc sd hna hnc hnd hda hdc hdd
    exact parse_hunk_meta_short_old sa sc sd hna hnc hnd hda hdc hdd
  · intro sa sb sc hna hnb hnc hda hdb hdc
    exact parse_hunk_meta_short_new sa sb sc hna hnb hnc hda hdb hdc
  · intro line diff headers hm hp
    have hshape : ∃ c t, line = c :: t ∧ c ≠ '-' ∧ c ≠ '+' := by
      rw [is_hunk_meta, Bool.or_eq_true] at hm
      rcases hm with h | h
      · rw [Bool.and_eq_true] at h
        have hpre := h.1
        rw [pyStartswith] at hpre
        obtain ⟨t, ht⟩ := (isPrefixOf_iff_exists _ _).1 hpre
        rw [show "@@ -".toList = '@' :: "@ -".toList from rfl] at ht
        exact ⟨'@', _, by rw [ht]; rfl, by decide, by decide⟩
      · rw [Bool.and_eq_true] at h
        have hpre := h.1
        rw [pyStartswith] at hpre
        obtain ⟨t, ht⟩ := (isPrefixOf_iff_exists _ _).1 hpre
        rw [show "## -".toList = '#' :: "# -".toList from rfl] at ht
        exact ⟨'#', _, by rw [ht]; rfl, by decide, by decide⟩
    obtain ⟨c, t, hlt, hc1, hc2⟩ := hshape
    have hop : is_old_path line = false := by
      rw [hlt, is_old_path, pyStartswith, show "--- ".toList = '-' :: "-- ".toList from rfl,
        isPrefixOf_cons_cons]
      simp [Ne.symm hc1]
    have hnp : is_new_path line = false := by
      rw [hlt, is_new_path, pyStartswith, show "+++ ".toList = '+' :: "++ ".toList from rfl,
        isPrefixOf_cons_cons]
      simp [Ne.symm hc2]
    rw [parseStep]
    simp only [hop, hnp, hm, hp, Bool.false_eq_true, if_false, Bool.false_and, if_true]

/-- C5 witness: the sample metas of the source comments and a non-numeric
field. -/
theorem claim_C5_witness :
    parse_hunk_meta ("@@ -3,7 +3,6 @@\n".toList) =
      some (((digitsVal ['3'] : Int), (digitsVal ['7'] : Int)),
        ((digitsVal ['3'] : Int), (digitsVal ['6'] : Int))) ∧
    parse_hunk_meta ("@@ -1 +1,2 @@\n".toList) =
      some (((digitsVal ['1'] : Int), (1 : Int)),
        ((digitsVal ['1'] : Int), (digitsVal ['2'] : Int))) ∧
    parse_hunk_meta ("@@ -8,3 +9 @@\n".toList) =
      some (((digitsVal ['8'] : Int), (digitsVal ['3'] : Int)),
        ((digitsVal ['9'] : Int), (1 : Int))) ∧
    parseStep ⟨[], none, none, []⟩ [] ("@@ -x,7 +3,6 @@\n".toList) =
      .error (.invalidHunkMeta ("@@ -x,7 +3,6 @@\n".toList)) :=
  ⟨claim_C5_hunk_meta_parsing.1 ['3'] ['7'] ['3'] ['6'] (by decide) (by decide) (by decide)
      (by decide) (by decide) (by decide) (by decide) (by decide),
   claim_C5_hunk_meta_parsing.2.1 ['1'] ['1'] ['2'] (by decide) (by decide) (by decide)
      (by decide) (by decide) (by decide),
   claim_C5_hunk_meta_parsing.2.2.1 ['8'] ['3'] ['9'] (by decide) (by decide) (by decide)
      (by decide) (by decide) (by decide),
   claim_C5_hunk_meta_parsing.2.2.2 _ _ _ (by decide) (by decide)⟩

/-- C8 witness for the amended statement: a diff with address-sorted
hunks. -/
theorem claim_C8_witness :
    (∀ h ∈ (⟨[], some ("--- a\n".toList), some ("+++ b\n".toList),
        [⟨[], "@@ -1,3 +1,3 @@\n".toList, (1, 3), (1, 3), []⟩,
         ⟨[], "@@ -10,2 +10,2 @@\n".toList, (10, 2), (10, 2), []⟩]⟩ : UnifiedDiff).hunks,
      0 ≤ h.old_addr.1 + h.old_addr.2 - 1 ∧ 0 ≤ h.new_addr.1 + h.new_addr.2 - 1) ∧
    (⟨[], some ("--- a\n".toList), some ("+++ b\n".toList),
        [⟨[], "@@ -1,3 +1,3 @@\n".toList, (1, 3), (1, 3), []⟩,
         ⟨[], "@@ -10,2 +10,2 @@\n".toList, (10, 2), (10, 2), []⟩]⟩ :
      UnifiedDiff).hunks.Chain' (fun h1 h2 =>
        h1.old_addr.1 + h1.old_addr.2 ≤ h2.old_addr.1 + h2.old_addr.2 ∧
        h1.new_addr.1 + h1.new_addr.2 ≤ h2.new_addr.1 + h2.new_addr.2) ∧
    (numWidth ⟨[], some ("--- a\n".toList), some ("+++ b\n".toList),
        [⟨[], "@@ -1,3 +1,3 @@\n".toList, (1, 3), (1, 3), []⟩,
         ⟨[], "@@ -10,2 +10,2 @@\n".toList, (10, 2), (10, 2), []⟩]⟩ =
      specNumWidth ⟨[], some ("--- a\n".toList), some ("+++ b\n".toList),
        [⟨[], "@@ -1,3 +1,3 @@\n".toList, (1, 3), (1, 3), []⟩,
         ⟨[], "@@ -10,2 +10,2 @@\n".toList, (10, 2), (10, 2), []⟩]⟩ ∧
     ((⟨[], some ("--- a\n".toList), some ("+++ b\n".toList),
        [⟨[], "@@ -1,3 +1,3 @@\n".toList, (1, 3), (1, 3), []⟩,
         ⟨[], "@@ -10,2 +10,2 @@\n".toList, (10, 2), (10, 2), []⟩]⟩ :
        UnifiedDiff).hunks = [] →
      numWidth ⟨[], some ("--- a\n".toList), some ("+++ b\n".toList),
        [⟨[], "@@ -1,3 +1,3 @@\n".toList, (1, 3), (1, 3), []⟩,
         ⟨[], "@@ -10,2 +10,2 @@\n".toList, (10, 2), (10, 2), []⟩]⟩ = pyStrLenInt 0)) :=
  ⟨by decide,
   List.chain'_cons.2 ⟨⟨by decide, by decide⟩, List.chain'_singleton _⟩,
   claim_C8_gutter_width_amended ⟨[], some ("--- a\n".toList), some ("+++ b\n".toList),
      [⟨[], "@@ -1,3 +1,3 @@\n".toList, (1, 3), (1, 3), []⟩,
       ⟨[], "@@ -10,2 +10,2 @@\n".toList, (10, 2), (10, 2), []⟩]⟩ (by decide)
     (List.chain'_cons.2 ⟨⟨by decide, by decide⟩, List.chain'_singleton _⟩)⟩

end Ydiff
